import Mathlib

/-!
Shallow embedding of the NBT decoder from `src/nbt.h` and `src/reader.cxx`.

Conventions of the embedding:
* A byte stream is a `List Nat`, consumed from the front; each element models one
  `unsigned char`.  Wherever the C++ code converts a buffer byte into an integer
  (`static_cast<T>(data[i])` on an `unsigned char`) the model writes `b % 256`,
  so the model is total on arbitrary `Nat` inputs while agreeing with the code on
  every real byte stream.
* The cursor is `MemoryInputStream`: `read` yields exactly `n` bytes or fails with
  `PrematureEof`.  Fallible operations return `Except DErr (result × rest)`,
  threading the not-yet-consumed suffix of the stream; `bindRead`/`bindExcept`
  model C++ exception propagation (the first failure aborts the whole decode).
* `float`/`double` payloads are kept as their raw bytes (the code copies the
  bytes into the native float representation; that reinterpretation is outside
  the model, the byte contents are preserved exactly).
* The iterative engine (`TagReadState` stack) is modelled by a step function on an
  explicit state; the unbounded C++ `while` loop of `process_read_state` is run
  with an explicit fuel which is proven sufficient (`outOfFuel` is unreachable).
* `std::unordered_map` together with `insert` (which does NOT overwrite an
  existing key) is modelled as an association list in insertion order where
  `mapInsert` is a no-op when the key is already present.
-/

namespace Nbt

abbrev Bytes := List Nat

/-- Decoded tag values, mirroring the `Tag` class hierarchy of `src/nbt.h`.
`BasicTag` values are held as mathematical integers (the decoded signed value);
float payloads are held as raw bytes. -/
inductive Tag where
  | byteTag (value : Int)
  | shortTag (value : Int)
  | intTag (value : Int)
  | longTag (value : Int)
  | floatTag (raw : Bytes)
  | doubleTag (raw : Bytes)
  | byteArrayTag (value : Bytes)
  | stringTag (value : Bytes)
  | listTag (elemKind : Nat) (values : List Tag)
  | compoundTag (values : List (Bytes × Tag))
  | intArrayTag (values : List Int)

/-- The wire kind id of a decoded tag (TAG_TYPE_BYTE = 1 … TAG_TYPE_INT_ARRAY = 11). -/
def kindOf : Tag → Nat
  | .byteTag _ => 1
  | .shortTag _ => 2
  | .intTag _ => 3
  | .longTag _ => 4
  | .floatTag _ => 5
  | .doubleTag _ => 6
  | .byteArrayTag _ => 7
  | .stringTag _ => 8
  | .listTag _ _ => 9
  | .compoundTag _ => 10
  | .intArrayTag _ => 11

/-- `RootTag` of `src/nbt.h`: the root name together with the decoded tag.
`tag` is an owning pointer in the source and may be null, hence `Option`. -/
structure RootTag where
  name : Bytes
  tag : Option Tag

/-- Decode-time failures.  `prematureEof` is `PrematureEof`; `unknownTagKind` and
`invalidListElementKind` are the two `IoError`s thrown in `read_simple_tag` /
`new_list_read_state`; `logicError` stands for `std::logic_error` (engine
contract violations); `outOfFuel` is an artifact of running the unbounded drive
loop on fuel and is proven unreachable. -/
inductive DErr where
  | prematureEof
  | unknownTagKind (id : Nat)
  | invalidListElementKind
  | logicError
  | outOfFuel
deriving DecidableEq

/-- Sequencing of a fallible read with the continuation that consumes its result
and the rest of the stream; a thrown error propagates unchanged. -/
def bindRead {α β : Type} (x : Except DErr (α × Bytes)) (g : α → Bytes → Except DErr β) :
    Except DErr β :=
  match x with
  | .error e => .error e
  | .ok (a, rest) => g a rest

/-- Sequencing of a fallible operation without a stream component. -/
def bindExcept {α β : Type} (x : Except DErr α) (g : α → Except DErr β) : Except DErr β :=
  match x with
  | .error e => .error e
  | .ok a => g a

/-- `MemoryInputStream::read`: yield exactly `n` bytes or fail with `PrematureEof`. -/
def readBytes (n : Nat) (inp : Bytes) : Except DErr (Bytes × Bytes) :=
  if inp.length < n then .error .prematureEof
  else .ok (inp.take n, inp.drop n)

/-- `read_big_endian_unsigned_int<T, size>`: assemble `size` bytes, most significant
first.  The code computes `n = (n << 8) | static_cast<T>(data[i])`; since each
`data[i]` is an `unsigned char` (< 256, written `b % 256` here) and no
instantiation can overflow `T`, this equals `n * 256 + b`. -/
def read_big_endian_unsigned_int (size : Nat) (inp : Bytes) : Except DErr (Nat × Bytes) :=
  bindRead (readBytes size inp) fun data inp =>
    .ok (data.foldl (fun n b => n * 256 + b % 256) 0, inp)

/-- `twos_complement_decode<size, RT, IT>`: the sign bit is tested with a bitwise
and; if set, the absolute value is `(~v) + 1` in the unsigned width-`size` type
(written `(2^(8 size) - 1 - v + 1) % 2^(8 size)`), and the result is
`-((RT)abs_value - 1) - 1`.  The result lives in `Int`; the single case where the
C++ cast `(RT)abs_value` wraps (`abs_value = 2^(8 size - 1)`) produces the same
final value as this exact-integer reading. -/
def twos_complement_decode (size : Nat) (v : Nat) : Int :=
  let signBit : Nat := 2 ^ (size * 8 - 1)
  if v &&& signBit ≠ 0 then
    let absValue : Nat := (2 ^ (size * 8) - 1 - v + 1) % 2 ^ (size * 8);
    -((absValue : Int) - 1) - 1
  else
    (v : Int)

/-- Conversion of a 32-bit pattern to a signed `int32_t` value
(implementation-defined in C++; modelled as the universal wraparound behavior). -/
def uint32ToInt32 (p : Nat) : Int :=
  if 2 ^ 31 ≤ p % 2 ^ 32 then (p % 2 ^ 32 : Int) - 2 ^ 32 else (p % 2 ^ 32 : Int)

/-- The per-element decode of `read_int_array_tag`.  The source instantiates
`twos_complement_decode<4, uint32_t, int32_t>` — the result/input type parameters
are swapped relative to `read_simple_payload` — so the arithmetic happens on
32-bit patterns with wraparound.  Modelled at the pattern level: `absValue` is
`(~v) + 1` on the 32-bit pattern, `t1` is `abs_value - 1` cast to `uint32_t`,
`t2` its unsigned negation, `t3` the final `- 1`, and the result is the stored
`int32_t`. -/
def int_array_elem_decode (enc : Nat) : Int :=
  let w : Nat := 2 ^ 32
  let signBit : Nat := 2 ^ 31
  if enc &&& signBit ≠ 0 then
    let absValue : Nat := (w - 1 - enc % w + 1) % w
    let t1 : Nat := (absValue + (w - 1)) % w
    let t2 : Nat := (w - t1) % w
    let t3 : Nat := (t2 + (w - 1)) % w
    uint32ToInt32 t3
  else
    uint32ToInt32 enc

/-- `read_simple_payload<TagType, RawType, size>`: a big-endian unsigned read
followed by the two's-complement sign decode. -/
def read_simple_payload (size : Nat) (inp : Bytes) : Except DErr (Int × Bytes) :=
  bindRead (read_big_endian_unsigned_int size inp) fun enc inp =>
    .ok (twos_complement_decode size enc, inp)

/-- `read_byte_array_tag`: 4-byte big-endian length, then that many raw bytes. -/
def read_byte_array_tag (inp : Bytes) : Except DErr (Tag × Bytes) :=
  bindRead (read_big_endian_unsigned_int 4 inp) fun len inp =>
    bindRead (readBytes len inp) fun data inp =>
      .ok (.byteArrayTag data, inp)

/-- The element loop of `read_int_array_tag`: `n` big-endian 4-byte reads, each
decoded through the swapped-parameter two's-complement instantiation. -/
def read_int_array_elems (n : Nat) (inp : Bytes) : Except DErr (List Int × Bytes) :=
  match n with
  | 0 => .ok ([], inp)
  | n + 1 =>
    bindRead (read_big_endian_unsigned_int 4 inp) fun enc inp =>
      bindRead (read_int_array_elems n inp) fun vals inp =>
        .ok (int_array_elem_decode enc :: vals, inp)

/-- `read_int_array_tag`: 4-byte big-endian length, then that many elements. -/
def read_int_array_tag (inp : Bytes) : Except DErr (Tag × Bytes) :=
  bindRead (read_big_endian_unsigned_int 4 inp) fun len inp =>
    bindRead (read_int_array_elems len inp) fun vals inp =>
      .ok (.intArrayTag vals, inp)

/-- `read_float_tag<T>`: reads `sizeof(T)` bytes straight into the value; the
model keeps the raw bytes. -/
def read_float_raw (size : Nat) (inp : Bytes) : Except DErr (Bytes × Bytes) :=
  readBytes size inp

/-- `read_string`: 2-byte big-endian length, then that many raw bytes, verbatim. -/
def read_string (inp : Bytes) : Except DErr (Bytes × Bytes) :=
  bindRead (read_big_endian_unsigned_int 2 inp) fun len inp =>
    readBytes len inp

/-- `read_simple_tag`: dispatch on a non-container kind id.  `TAG_TYPE_LIST` and
`TAG_TYPE_COMPOUND` are `std::logic_error` contract violations; `TAG_TYPE_END`
has no case in the `switch` and falls into the `default` arm together with every
id above 11, throwing the "Unknown tag type" `IoError`. -/
def read_simple_tag (tagType : Nat) (inp : Bytes) : Except DErr (Tag × Bytes) :=
  match tagType with
  | 1 => bindRead (read_simple_payload 1 inp) fun v inp => .ok (.byteTag v, inp)
  | 2 => bindRead (read_simple_payload 2 inp) fun v inp => .ok (.shortTag v, inp)
  | 3 => bindRead (read_simple_payload 4 inp) fun v inp => .ok (.intTag v, inp)
  | 4 => bindRead (read_simple_payload 8 inp) fun v inp => .ok (.longTag v, inp)
  | 5 => bindRead (read_float_raw 4 inp) fun raw inp => .ok (.floatTag raw, inp)
  | 6 => bindRead (read_float_raw 8 inp) fun raw inp => .ok (.doubleTag raw, inp)
  | 7 => read_byte_array_tag inp
  | 8 => bindRead (read_string inp) fun s inp => .ok (.stringTag s, inp)
  | 9 => .error .logicError
  | 10 => .error .logicError
  | 11 => read_int_array_tag inp
  | other => .error (.unknownTagKind other)

/-- `std::unordered_map::insert`: inserts `(k, v)` only when no element with key
`k` is present; an existing entry is NOT overwritten.  The unordered mapping is
represented as an association list in insertion order. -/
def mapInsert (acc : List (Bytes × Tag)) (k : Bytes) (v : Tag) : List (Bytes × Tag) :=
  if acc.any (fun p => p.1 == k) then acc else acc ++ [(k, v)]

/-- One in-progress container on the engine's explicit work stack
(`TagReadState`).  `root` is `ReadRootTagState` (its output slot lives in
`EngineState.slot`); `compound` is `ReadCompoundTagState` with its partial
mapping and `m_next_tag_name`; `list` is `ReadListTagState<T>` with
`m_type_id`, the accumulated values and `m_remaining_reads`. -/
inductive Frame where
  | root
  | compound (acc : List (Bytes × Tag)) (pendingName : Bytes)
  | list (elemKind : Nat) (acc : List Tag) (remaining : Nat)

/-- What one activation of the top frame does to the stack, separated from the
bytes it reads so that stack bookkeeping is byte-independent. -/
inductive StepEffect where
  | pop
  | finish (t : Tag)
  | push (child : Frame) (self : Frame)
  | replaceSelf (self : Frame)

/-- The whole engine state: remaining input, the frame stack (head of the list =
top of the C++ `io_state` vector), and the root output slot. -/
structure EngineState where
  input : Bytes
  stack : List Frame
  slot : Option Tag

/-- `add_tag`: deliver a finished tag to a frame.  `ReadRootTagState` stores it
in the output slot; `ReadCompoundTagState` inserts it under `m_next_tag_name`;
`ReadListTagState<T>` first `dynamic_cast`s to `T` — for `ListTag<Tag>`
(element kind 9, a list of lists) any tag passes, otherwise only a tag of the
declared element kind — and throws `std::logic_error` on mismatch. -/
def add_tag (fr : Frame) (slot : Option Tag) (t : Tag) : Except DErr (Frame × Option Tag) :=
  match fr with
  | .root => .ok (.root, some t)
  | .compound acc pendingName =>
    .ok (.compound (mapInsert acc pendingName t) pendingName, slot)
  | .list elemKind acc remaining =>
    if elemKind = 9 ∨ kindOf t = elemKind then
      .ok (.list elemKind (acc ++ [t]) remaining, slot)
    else
      .error .logicError

/-- `new_list_read_state`: element kind End throws the
"List tag had a tag type of TAG_End" `IoError` (before the declared count is
even inspected); kinds 1–11 produce a list frame; anything else throws the
"Unknown tag type in NBT for list" `IoError`. -/
def new_list_read_state (innerTagType : Nat) (length : Nat) : Except DErr Frame :=
  if innerTagType = 0 then .error .invalidListElementKind
  else if innerTagType ≤ 11 then .ok (.list innerTagType [] length)
  else .error (.unknownTagKind innerTagType)

/-- `new_read_state_for`: a Compound gets a fresh compound frame; a List first
reads its element kind byte and 4-byte count from the stream, then builds the
list frame; any other kind is a `std::logic_error` contract violation. -/
def new_read_state_for (tagType : Nat) (inp : Bytes) : Except DErr (Frame × Bytes) :=
  if tagType = 10 then .ok (.compound [] [], inp)
  else if tagType = 9 then
    bindRead (read_big_endian_unsigned_int 1 inp) fun innerTagType inp =>
      bindRead (read_big_endian_unsigned_int 4 inp) fun length inp =>
        bindExcept (new_list_read_state innerTagType length) fun fr =>
          .ok (fr, inp)
  else .error .logicError

/-- The single-pass element loop of `ReadListTagState::continue_read` for a
simple element kind: read each element with `read_simple_tag` and run it through
`add_tag`'s `dynamic_cast` check. -/
def read_list_elems (elemKind : Nat) (n : Nat) (inp : Bytes) : Except DErr (List Tag × Bytes) :=
  match n with
  | 0 => .ok ([], inp)
  | n + 1 =>
    bindRead (read_simple_tag elemKind inp) fun t inp =>
      if elemKind = 9 ∨ kindOf t = elemKind then
        bindRead (read_list_elems elemKind n inp) fun ts inp =>
          .ok (t :: ts, inp)
      else .error .logicError

/-- The reading part of one `continue_read` activation of a frame; returns the
effect on the stack plus the remaining input.
Root frame: pop (it only ever receives the top-level value, then terminates the
loop).  Compound frame: read a kind byte; End completes the mapping; a Compound
or List entry reads the name and pushes a child frame (remembering the pending
name); a simple entry reads the name, decodes inline and inserts directly.
List frame: container element kind pushes one child per activation and
decrements the count, completing at zero; a simple element kind reads all
remaining elements in one pass and completes. -/
def stepRead (fr : Frame) (inp : Bytes) : Except DErr (StepEffect × Bytes) :=
  match fr with
  | .root => .ok (.pop, inp)
  | .compound acc _pendingName =>
    bindRead (read_big_endian_unsigned_int 1 inp) fun tagTypeId inp =>
      if tagTypeId = 0 then .ok (.finish (.compoundTag acc), inp)
      else
        bindRead (read_string inp) fun name inp =>
          if tagTypeId = 10 ∨ tagTypeId = 9 then
            bindRead (new_read_state_for tagTypeId inp) fun child inp =>
              .ok (.push child (.compound acc name), inp)
          else
            bindRead (read_simple_tag tagTypeId inp) fun t inp =>
              .ok (.replaceSelf (.compound (mapInsert acc name t) name), inp)
  | .list elemKind acc remaining =>
    if elemKind = 10 ∨ elemKind = 9 then
      match remaining with
      | 0 => .ok (.finish (.listTag elemKind acc), inp)
      | r + 1 =>
        bindRead (new_read_state_for elemKind inp) fun child inp =>
          .ok (.push child (.list elemKind acc r), inp)
    else
      bindRead (read_list_elems elemKind remaining inp) fun ts inp =>
        .ok (.finish (.listTag elemKind (acc ++ ts)), inp)

/-- `TagReadState::finish_tag`: deliver the finished tag to the frame beneath
(`io_state[io_state.size() - 2]`) and pop the completing frame.  With no frame
beneath the C++ index is out of bounds; the model returns the contract-violation
error (unreachable from `read_nbt`, whose stack always bottoms out at the root
frame). -/
def finish_tag (t : Tag) (below : List Frame) (slot : Option Tag) (inp : Bytes) :
    Except DErr EngineState :=
  match below with
  | parent :: rest =>
    bindExcept (add_tag parent slot t) fun ps =>
      .ok { input := inp, stack := ps.1 :: rest, slot := ps.2 }
  | [] => .error .logicError

/-- Apply a step effect to the rest of the stack. -/
def applyEffect (eff : StepEffect) (below : List Frame) (slot : Option Tag) (inp : Bytes) :
    Except DErr EngineState :=
  match eff with
  | .pop => .ok { input := inp, stack := below, slot := slot }
  | .finish t => finish_tag t below slot inp
  | .push child self => .ok { input := inp, stack := child :: self :: below, slot := slot }
  | .replaceSelf self => .ok { input := inp, stack := self :: below, slot := slot }

/-- One iteration of the drive loop: activate the top frame. -/
def continue_read (st : EngineState) : Except DErr EngineState :=
  match st.stack with
  | [] => .error .logicError
  | fr :: rest =>
    bindRead (stepRead fr st.input) fun eff inp =>
      applyEffect eff rest st.slot inp

/-- Termination measure weight of one frame. -/
def frameWeight : Frame → Nat
  | .root => 1
  | .compound _ _ => 1
  | .list _ _ remaining => 1 + 2 * remaining

/-- Termination measure of an engine state: every successful `continue_read`
strictly decreases it (a 4-byte count can enlarge the stack weight by at most
`2^33 - 1`, while the bytes feeding it weigh `2^33` each). -/
def engineMeasure (st : EngineState) : Nat :=
  2 ^ 33 * st.input.length + (st.stack.map frameWeight).sum

/-- `process_read_state`: drive the top frame until the stack empties, here on
explicit fuel (`outOfFuel` is proven unreachable for fuel `engineMeasure st + 1`). -/
def process_read_state (fuel : Nat) (st : EngineState) : Except DErr (Option Tag × Bytes) :=
  match st.stack with
  | [] => .ok (st.slot, st.input)
  | _ :: _ =>
    match fuel with
    | 0 => .error .outOfFuel
    | fuel + 1 =>
      bindExcept (continue_read st) fun st' =>
        process_read_state fuel st'

/-- `read_nbt`: read the root kind id and the root name directly; if the root
kind is List or Compound, push a root frame and a frame for the root container
and run the drive loop.  Any other root kind id returns the `RootTag` with a
null tag immediately — no payload is read and no kind check happens.  Returns
the decoded root together with the unconsumed rest of the stream. -/
def read_nbt (inp : Bytes) : Except DErr (RootTag × Bytes) :=
  bindRead (read_big_endian_unsigned_int 1 inp) fun tagTypeId inp =>
    bindRead (read_string inp) fun name inp =>
      if tagTypeId = 9 ∨ tagTypeId = 10 then
        bindRead (new_read_state_for tagTypeId inp) fun fr inp =>
          bindRead (process_read_state
              (engineMeasure { input := inp, stack := [fr, .root], slot := none } + 1)
              { input := inp, stack := [fr, .root], slot := none }) fun slot inp =>
            .ok ({ name := name, tag := slot }, inp)
      else
        .ok ({ name := name, tag := none }, inp)

/-! Spec-side definitions.  These follow the words of `spec.md` (the wire grammar
of section 6 and the numeric characterizations), to be compared with the
definitions translated from the source above. -/

/-- Spec characterization of two's complement: a width-`size` raw value with the
sign bit set denotes `raw - 2^(8 size)`, otherwise `raw` itself. -/
def twosComplementSpec (size : Nat) (raw : Nat) : Int :=
  if 2 ^ (size * 8 - 1) ≤ raw then (raw : Int) - 2 ^ (size * 8) else (raw : Int)

/-- Big-endian bytes of an unsigned value, per the spec's wire grammar. -/
def specEncodeBE (width n : Nat) : Bytes :=
  (List.range width).map (fun i => n / 256 ^ (width - 1 - i) % 256)

/-- Big-endian two's-complement bytes of a signed value, per the spec. -/
def specEncodeInt (width : Nat) (v : Int) : Bytes :=
  specEncodeBE width (v % (2 ^ (width * 8) : Nat)).toNat

/-- Modelled from the spec: concatenated 4-byte elements of an IntArray. -/
def specEncodeInts : List Int → Bytes
  | [] => []
  | v :: vs => specEncodeInt 4 v ++ specEncodeInts vs

mutual
/-- Modelled from the spec: the `Payload(kind)` production of the wire grammar in
section 6 of the spec (serialization is not implemented in the source). -/
def specEncodePayload : Tag → Bytes
  | .byteTag v => specEncodeInt 1 v
  | .shortTag v => specEncodeInt 2 v
  | .intTag v => specEncodeInt 4 v
  | .longTag v => specEncodeInt 8 v
  | .floatTag raw => raw
  | .doubleTag raw => raw
  | .byteArrayTag bs => specEncodeBE 4 bs.length ++ bs
  | .stringTag s => specEncodeBE 2 s.length ++ s
  | .listTag ek ts => ek :: (specEncodeBE 4 ts.length ++ specEncodeElems ts)
  | .compoundTag es => specEncodeEntries es ++ [0]
  | .intArrayTag vs => specEncodeBE 4 vs.length ++ specEncodeInts vs

/-- Modelled from the spec: concatenated payloads of list elements. -/
def specEncodeElems : List Tag → Bytes
  | [] => []
  | t :: ts => specEncodePayload t ++ specEncodeElems ts

/-- Modelled from the spec: the `{ kind name Payload }*` body of a Compound. -/
def specEncodeEntries : List (Bytes × Tag) → Bytes
  | [] => []
  | (n, t) :: es =>
    (kindOf t :: (specEncodeBE 2 n.length ++ n ++ specEncodePayload t)) ++ specEncodeEntries es
end

/-- Modelled from the spec: `Stream := kind name Payload(kind)` — a valid
encoding of a whole document with the given root name and value. -/
def specEncodeRoot (name : Bytes) (t : Tag) : Bytes :=
  kindOf t :: (specEncodeBE 2 name.length ++ name ++ specEncodePayload t)

mutual
/-- List homogeneity of a decoded tree: every List node's elements all have the
List's declared element kind, recursively. -/
def homogeneousB : Tag → Bool
  | .listTag ek ts => homogeneousElems ek ts
  | .compoundTag es => homogeneousEntries es
  | _ => true

/-- Homogeneity of the elements of one List node. -/
def homogeneousElems (ek : Nat) : List Tag → Bool
  | [] => true
  | t :: ts => (kindOf t == ek) && homogeneousB t && homogeneousElems ek ts

/-- Homogeneity inside all values of a Compound node. -/
def homogeneousEntries : List (Bytes × Tag) → Bool
  | [] => true
  | (_, t) :: es => homogeneousB t && homogeneousEntries es
end

/-- Invariant carried by one frame: all tags accumulated so far are homogeneous,
and a list frame's accumulated elements already have its declared element kind. -/
def frameOK : Frame → Prop
  | .root => True
  | .compound acc _ => ∀ p ∈ acc, homogeneousB p.2 = true
  | .list ek acc _ => ∀ t ∈ acc, kindOf t = ek ∧ homogeneousB t = true

/-- Whether a frame is a list frame. -/
def isListFrame : Frame → Prop
  | .list _ _ _ => True
  | _ => False

/-- The frame pushed directly above a list-of-lists frame is itself a list frame
(so the tag it eventually delivers has kind 9, which `add_tag` does not check
for element kind 9). -/
def childParentOK (child parent : Frame) : Prop :=
  match parent with
  | .list ek _ _ => ek = 9 → isListFrame child
  | _ => True

/-- `childParentOK` along the whole stack. -/
def chainOK : List Frame → Prop
  | [] => True
  | [_] => True
  | child :: parent :: rest => childParentOK child parent ∧ chainOK (parent :: rest)

/-- The engine-state invariant for list homogeneity. -/
def stateOK (st : EngineState) : Prop :=
  (∀ fr ∈ st.stack, frameOK fr) ∧ chainOK st.stack ∧
    (∀ t, st.slot = some t → homogeneousB t = true)

/-- A reader consumes a determined number of leading bytes: on the same stream
truncated to `j` bytes it returns the same value with correspondingly truncated
rest if the truncation point is at or beyond everything it consumed, and fails
with `PrematureEof` if the truncation point lies strictly inside. -/
def ConsumesUpTo {α : Type} (f : Bytes → Except DErr (α × Bytes)) : Prop :=
  ∀ inp a rest, f inp = .ok (a, rest) →
    ∃ c, c + rest.length = inp.length ∧ rest = inp.drop c ∧
      ∀ j, j ≤ inp.length →
        f (inp.take j) =
          if c ≤ j then .ok (a, (inp.take j).drop c) else .error .prematureEof

/-! Basic lemmas about the sequencing helpers and the primitive readers. -/

@[simp] theorem bindRead_ok {α β : Type} (a : α) (rest : Bytes)
    (g : α → Bytes → Except DErr β) : bindRead (.ok (a, rest)) g = g a rest := rfl

@[simp] theorem bindRead_error {α β : Type} (e : DErr) (g : α → Bytes → Except DErr β) :
    bindRead (Except.error e : Except DErr (α × Bytes)) g = .error e := rfl

@[simp] theorem bindExcept_ok {α β : Type} (a : α) (g : α → Except DErr β) :
    bindExcept (.ok a) g = g a := rfl

@[simp] theorem bindExcept_error {α β : Type} (e : DErr) (g : α → Except DErr β) :
    bindExcept (Except.error e : Except DErr α) g = .error e := rfl

theorem bindRead_eq_ok {α β : Type} {x : Except DErr (α × Bytes)}
    {g : α → Bytes → Except DErr β} {b : β} (h : bindRead x g = .ok b) :
    ∃ a rest, x = .ok (a, rest) ∧ g a rest = .ok b := by
  cases x with
  | error e => simp [bindRead] at h
  | ok p => exact ⟨p.1, p.2, rfl, h⟩

theorem bindExcept_eq_ok {α β : Type} {x : Except DErr α}
    {g : α → Except DErr β} {b : β} (h : bindExcept x g = .ok b) :
    ∃ a, x = .ok a ∧ g a = .ok b := by
  cases x with
  | error e => simp [bindExcept] at h
  | ok a => exact ⟨a, rfl, h⟩

theorem readBytes_eq_ok {n : Nat} {inp data rest : Bytes}
    (h : readBytes n inp = .ok (data, rest)) :
    n ≤ inp.length ∧ data = inp.take n ∧ rest = inp.drop n := by
  unfold readBytes at h
  split at h
  · exact absurd h (by simp)
  · rename_i hlen
    simp only [Except.ok.injEq, Prod.mk.injEq] at h
    exact ⟨by omega, h.1.symm, h.2.symm⟩

theorem readBytes_append (l r : Bytes) : readBytes l.length (l ++ r) = .ok (l, r) := by
  unfold readBytes
  rw [if_neg (by simp), List.take_left, List.drop_left]

/-- Big-endian assembly of a byte list is bounded by `256 ^ length`. -/
theorem foldl_byte_lt (l : Bytes) :
    ∀ n, l.foldl (fun n b => n * 256 + b % 256) n < (n + 1) * 256 ^ l.length := by
  induction l with
  | nil => intro n; simp
  | cons b l ih =>
    intro n
    have h1 := ih (n * 256 + b % 256)
    have hb : b % 256 < 256 := Nat.mod_lt _ (by omega)
    calc List.foldl (fun n b => n * 256 + b % 256) (n * 256 + b % 256) l
        < (n * 256 + b % 256 + 1) * 256 ^ l.length := h1
      _ ≤ ((n + 1) * 256) * 256 ^ l.length := by
          have : n * 256 + b % 256 + 1 ≤ (n + 1) * 256 := by omega
          exact Nat.mul_le_mul_right _ this
      _ = (n + 1) * 256 ^ (b :: l).length := by
          simp [List.length_cons, pow_succ]
          ring

theorem read_big_endian_unsigned_int_eq_ok {size : Nat} {inp rest : Bytes} {v : Nat}
    (h : read_big_endian_unsigned_int size inp = .ok (v, rest)) :
    rest.length + size = inp.length ∧ v < 256 ^ size := by
  unfold read_big_endian_unsigned_int at h
  obtain ⟨data, rest1, hrb, hok⟩ := bindRead_eq_ok h
  obtain ⟨hlen, hdata, hrest1⟩ := readBytes_eq_ok hrb
  simp only [Except.ok.injEq, Prod.mk.injEq] at hok
  obtain ⟨hv, hr⟩ := hok
  subst hr; subst hrest1; subst hdata
  constructor
  · simp; omega
  · have := foldl_byte_lt (inp.take size) 0
    rw [List.length_take, min_eq_left hlen] at this
    omega

/-! `ConsumesUpTo` closure rules and instances for every reader. -/

theorem consumesUpTo_seq {α β : Type}
    {f : Bytes → Except DErr (α × Bytes)} {g : α → Bytes → Except DErr (β × Bytes)}
    (hf : ConsumesUpTo f) (hg : ∀ a, ConsumesUpTo (g a)) :
    ConsumesUpTo (fun inp => bindRead (f inp) g) := by
  intro inp b rest h
  have h' : bindRead (f inp) g = Except.ok (b, rest) := h
  cases hfa : f inp with
  | error e => rw [hfa] at h'; simp [bindRead] at h'
  | ok p =>
    obtain ⟨a, rest1⟩ := p
    rw [hfa] at h'
    have hga : g a rest1 = .ok (b, rest) := h'
    obtain ⟨c1, hc1len, hc1rest, hc1take⟩ := hf inp a rest1 hfa
    obtain ⟨c2, hc2len, hc2rest, hc2take⟩ := hg a rest1 b rest hga
    refine ⟨c1 + c2, by omega, ?_, ?_⟩
    · rw [hc2rest, hc1rest, List.drop_drop]
    · intro j hj
      show bindRead (f (inp.take j)) g = _
      rcases le_or_lt c1 j with hcj | hcj
      · have hf' := hc1take j hj
        rw [if_pos hcj] at hf'
        have hdt : (inp.take j).drop c1 = rest1.take (j - c1) := by
          rw [List.drop_take, hc1rest]
        have hj' : j - c1 ≤ rest1.length := by omega
        have hg' := hc2take (j - c1) hj'
        rw [hf', bindRead_ok, hdt, hg']
        rcases le_or_lt (c1 + c2) j with hj2 | hj2
        · rw [if_pos (show c2 ≤ j - c1 by omega), if_pos hj2]
          congr 2
          rw [← hdt, List.drop_drop]
        · rw [if_neg (show ¬ c2 ≤ j - c1 by omega), if_neg (show ¬ c1 + c2 ≤ j by omega)]
      · have hf' := hc1take j hj
        rw [if_neg (show ¬ c1 ≤ j by omega)] at hf'
        rw [hf']
        rw [if_neg (show ¬ c1 + c2 ≤ j by omega)]
        rfl

theorem consumesUpTo_ret {α : Type} (v : α) : ConsumesUpTo (fun inp => Except.ok (v, inp)) := by
  intro inp a rest h
  have h' : Except.ok (v, inp) = Except.ok (a, rest) := h
  simp only [Except.ok.injEq, Prod.mk.injEq] at h'
  obtain ⟨ha, hrest⟩ := h'
  subst ha; subst hrest
  exact ⟨0, by simp, by simp, by intro j hj; simp⟩

/-- A function that never succeeds trivially satisfies `ConsumesUpTo`. -/
theorem consumesUpTo_of_error {α : Type} {f : Bytes → Except DErr (α × Bytes)}
    (hf : ∀ inp a rest, f inp ≠ .ok (a, rest)) : ConsumesUpTo f := by
  intro inp a rest h
  exact absurd h (hf inp a rest)

theorem consumesUpTo_readBytes (n : Nat) : ConsumesUpTo (readBytes n) := by
  intro inp a rest h
  obtain ⟨hlen, ha, hrest⟩ := readBytes_eq_ok h
  subst ha; subst hrest
  refine ⟨n, by simp; omega, rfl, ?_⟩
  intro j hj
  unfold readBytes
  rcases le_or_lt n j with hnj | hnj
  · rw [if_pos hnj, if_neg (show ¬ (List.take j inp).length < n by simp; omega)]
    congr 2
    rw [List.take_take, min_eq_left hnj]
  · rw [if_neg (show ¬ n ≤ j by omega),
      if_pos (show (List.take j inp).length < n by simp; omega)]

theorem consumesUpTo_read_big_endian (size : Nat) :
    ConsumesUpTo (read_big_endian_unsigned_int size) := by
  unfold read_big_endian_unsigned_int
  exact consumesUpTo_seq (consumesUpTo_readBytes size) (fun data => consumesUpTo_ret _)

theorem consumesUpTo_read_simple_payload (size : Nat) :
    ConsumesUpTo (read_simple_payload size) := by
  unfold read_simple_payload
  exact consumesUpTo_seq (consumesUpTo_read_big_endian size) (fun enc => consumesUpTo_ret _)

theorem consumesUpTo_read_string : ConsumesUpTo read_string := by
  unfold read_string
  exact consumesUpTo_seq (consumesUpTo_read_big_endian 2) (fun len => consumesUpTo_readBytes len)

theorem consumesUpTo_read_byte_array_tag : ConsumesUpTo read_byte_array_tag := by
  unfold read_byte_array_tag
  exact consumesUpTo_seq (consumesUpTo_read_big_endian 4)
    (fun len => consumesUpTo_seq (consumesUpTo_readBytes len) (fun data => consumesUpTo_ret _))

theorem consumesUpTo_read_int_array_elems (n : Nat) :
    ConsumesUpTo (read_int_array_elems n) := by
  induction n with
  | zero =>
    intro inp a rest h
    exact consumesUpTo_ret ([] : List Int) inp a rest h
  | succ n ih =>
    intro inp a rest h
    refine consumesUpTo_seq (consumesUpTo_read_big_endian 4)
      (fun enc => consumesUpTo_seq ih (fun vals => consumesUpTo_ret _)) inp a rest ?_
    exact h

theorem consumesUpTo_read_int_array_tag : ConsumesUpTo read_int_array_tag := by
  unfold read_int_array_tag
  exact consumesUpTo_seq (consumesUpTo_read_big_endian 4)
    (fun len => consumesUpTo_seq (consumesUpTo_read_int_array_elems len)
      (fun vals => consumesUpTo_ret _))

theorem consumesUpTo_read_simple_tag (tagType : Nat) :
    ConsumesUpTo (read_simple_tag tagType) := by
  unfold read_simple_tag
  split
  · exact consumesUpTo_seq (consumesUpTo_read_simple_payload 1) (fun v => consumesUpTo_ret _)
  · exact consumesUpTo_seq (consumesUpTo_read_simple_payload 2) (fun v => consumesUpTo_ret _)
  · exact consumesUpTo_seq (consumesUpTo_read_simple_payload 4) (fun v => consumesUpTo_ret _)
  · exact consumesUpTo_seq (consumesUpTo_read_simple_payload 8) (fun v => consumesUpTo_ret _)
  · exact consumesUpTo_seq (consumesUpTo_readBytes 4) (fun raw => consumesUpTo_ret _)
  · exact consumesUpTo_seq (consumesUpTo_readBytes 8) (fun raw => consumesUpTo_ret _)
  · exact consumesUpTo_read_byte_array_tag
  · exact consumesUpTo_seq consumesUpTo_read_string (fun s => consumesUpTo_ret _)
  · exact consumesUpTo_of_error (by intro inp a rest h; simp at h)
  · exact consumesUpTo_of_error (by intro inp a rest h; simp at h)
  · exact consumesUpTo_read_int_array_tag
  · exact consumesUpTo_of_error (by intro inp a rest h; simp at h)

theorem consumesUpTo_new_read_state_for (tagType : Nat) :
    ConsumesUpTo (new_read_state_for tagType) := by
  unfold new_read_state_for
  split
  · exact consumesUpTo_ret _
  · split
    · refine consumesUpTo_seq (consumesUpTo_read_big_endian 1) (fun innerTagType => ?_)
      refine consumesUpTo_seq (consumesUpTo_read_big_endian 4) (fun length => ?_)
      intro inp a rest h
      obtain ⟨fr, hnl, hok⟩ := bindExcept_eq_ok h
      simp only [Except.ok.injEq, Prod.mk.injEq] at hok
      obtain ⟨ha, hrest⟩ := hok
      subst ha; subst hrest
      refine ⟨0, by simp, by simp, ?_⟩
      intro j hj
      rw [hnl]
      simp
    · exact consumesUpTo_of_error (by intro inp a rest h; simp at h)

theorem consumesUpTo_read_list_elems (elemKind n : Nat) :
    ConsumesUpTo (read_list_elems elemKind n) := by
  induction n with
  | zero =>
    intro inp a rest h
    exact consumesUpTo_ret ([] : List Tag) inp a rest h
  | succ n ih =>
    refine consumesUpTo_seq (consumesUpTo_read_simple_tag elemKind) (fun t => ?_)
    split
    · exact consumesUpTo_seq ih (fun ts => consumesUpTo_ret _)
    · exact consumesUpTo_of_error (by intro inp a rest h; simp at h)

theorem consumesUpTo_stepRead (fr : Frame) : ConsumesUpTo (stepRead fr) := by
  cases fr with
  | root => exact consumesUpTo_ret _
  | compound acc pendingName =>
    show ConsumesUpTo (fun inp => stepRead (.compound acc pendingName) inp)
    simp only [stepRead]
    refine consumesUpTo_seq (consumesUpTo_read_big_endian 1) (fun tagTypeId => ?_)
    split
    · exact consumesUpTo_ret _
    · refine consumesUpTo_seq consumesUpTo_read_string (fun name => ?_)
      split
      · exact consumesUpTo_seq (consumesUpTo_new_read_state_for tagTypeId)
          (fun child => consumesUpTo_ret _)
      · exact consumesUpTo_seq (consumesUpTo_read_simple_tag tagTypeId)
          (fun t => consumesUpTo_ret _)
  | list elemKind acc remaining =>
    show ConsumesUpTo (fun inp => stepRead (.list elemKind acc remaining) inp)
    simp only [stepRead]
    split
    · cases remaining with
      | zero => exact consumesUpTo_ret _
      | succ r =>
        exact consumesUpTo_seq (consumesUpTo_new_read_state_for elemKind)
          (fun child => consumesUpTo_ret _)
    · exact consumesUpTo_seq (consumesUpTo_read_list_elems elemKind remaining)
        (fun ts => consumesUpTo_ret _)

/-- A successful reader never lengthens the remaining stream. -/
theorem rest_length_le {α : Type} {f : Bytes → Except DErr (α × Bytes)}
    (hf : ConsumesUpTo f) {inp : Bytes} {a : α} {rest : Bytes}
    (h : f inp = .ok (a, rest)) : rest.length ≤ inp.length := by
  obtain ⟨c, hc, _, _⟩ := hf inp a rest h
  omega

/-! Facts feeding the termination measure. -/

theorem new_list_read_state_eq_ok {innerTagType length : Nat} {fr : Frame}
    (h : new_list_read_state innerTagType length = .ok fr) :
    fr = .list innerTagType [] length ∧ 1 ≤ innerTagType ∧ innerTagType ≤ 11 := by
  unfold new_list_read_state at h
  split at h
  · exact absurd h (by simp)
  · split at h
    · rename_i h0 h11
      simp only [Except.ok.injEq] at h
      exact ⟨h.symm, by omega, h11⟩
    · exact absurd h (by simp)

theorem new_read_state_for_eq_ok {tagType : Nat} {inp rest : Bytes} {fr : Frame}
    (h : new_read_state_for tagType inp = .ok (fr, rest)) :
    rest.length ≤ inp.length ∧ frameWeight fr < 2 ^ 33 ∧
      (tagType = 9 → rest.length + 5 = inp.length) ∧
      (tagType = 10 → fr = .compound [] [] ∧ rest = inp) := by
  unfold new_read_state_for at h
  split at h
  · rename_i h10
    simp only [Except.ok.injEq, Prod.mk.injEq] at h
    obtain ⟨hfr, hrest⟩ := h
    subst hrest
    refine ⟨le_refl _, ?_, by omega, fun _ => ⟨hfr.symm, rfl⟩⟩
    rw [← hfr]
    norm_num [frameWeight]
  · split at h
    · rename_i h10 h9
      obtain ⟨innerTagType, inp1, hu1, h⟩ := bindRead_eq_ok h
      obtain ⟨length, inp2, hu4, h⟩ := bindRead_eq_ok h
      obtain ⟨fr1, hnl, h⟩ := bindExcept_eq_ok h
      simp only [Except.ok.injEq, Prod.mk.injEq] at h
      obtain ⟨hfr, hrest⟩ := h
      subst hfr; subst hrest
      obtain ⟨hl1, _⟩ := read_big_endian_unsigned_int_eq_ok hu1
      obtain ⟨hl4, hlen4⟩ := read_big_endian_unsigned_int_eq_ok hu4
      obtain ⟨hfr1, _, _⟩ := new_list_read_state_eq_ok hnl
      subst hfr1
      refine ⟨by omega, ?_, fun _ => by omega, fun h10' => absurd h10' h10⟩
      show 1 + 2 * length < 2 ^ 33
      have : (256 : Nat) ^ 4 = 2 ^ 32 := by norm_num
      omega
    · exact absurd h (by simp)

theorem add_tag_weight {fr : Frame} {slot : Option Tag} {t : Tag} {fr' : Frame}
    {slot' : Option Tag} (h : add_tag fr slot t = .ok (fr', slot')) :
    frameWeight fr' = frameWeight fr := by
  cases fr with
  | root =>
    simp only [add_tag, Except.ok.injEq, Prod.mk.injEq] at h
    rw [← h.1]
  | compound acc pendingName =>
    simp only [add_tag, Except.ok.injEq, Prod.mk.injEq] at h
    rw [← h.1]
    rfl
  | list elemKind acc remaining =>
    simp only [add_tag] at h
    split at h
    · simp only [Except.ok.injEq, Prod.mk.injEq] at h
      rw [← h.1]
      rfl
    · exact absurd h (by simp)

theorem finish_tag_eq_ok {t : Tag} {below : List Frame} {slot : Option Tag} {inp : Bytes}
    {st' : EngineState} (h : finish_tag t below slot inp = .ok st') :
    ∃ parent rest parent' slot', below = parent :: rest ∧
      add_tag parent slot t = .ok (parent', slot') ∧
      st' = ⟨inp, parent' :: rest, slot'⟩ := by
  cases below with
  | nil => exact absurd h (by simp [finish_tag])
  | cons parent rest =>
    unfold finish_tag at h
    obtain ⟨ps, hadd, hok⟩ := bindExcept_eq_ok h
    simp only [Except.ok.injEq] at hok
    exact ⟨parent, rest, ps.1, ps.2, rfl, hadd, hok.symm⟩

@[simp] theorem frameWeight_root : frameWeight .root = 1 := rfl

@[simp] theorem frameWeight_compound (acc : List (Bytes × Tag)) (pn : Bytes) :
    frameWeight (.compound acc pn) = 1 := rfl

@[simp] theorem frameWeight_list (ek : Nat) (acc : List Tag) (r : Nat) :
    frameWeight (.list ek acc r) = 1 + 2 * r := rfl

/-- Every successful engine step strictly decreases the termination measure. -/
theorem engineMeasure_lt_of_continue_read {st st' : EngineState}
    (h : continue_read st = .ok st') : engineMeasure st' < engineMeasure st := by
  obtain ⟨inp, stack, slot⟩ := st
  cases stack with
  | nil => exact absurd h (by simp [continue_read])
  | cons fr rest =>
    unfold continue_read at h
    obtain ⟨eff, inp1, hsr, happ⟩ := bindRead_eq_ok h
    cases fr with
    | root =>
      have hsr' : (Except.ok (.pop, inp) : Except DErr (StepEffect × Bytes)) = .ok (eff, inp1) := hsr
      simp only [Except.ok.injEq, Prod.mk.injEq] at hsr'
      obtain ⟨heff, hinp⟩ := hsr'
      subst heff; subst hinp
      simp only [applyEffect, Except.ok.injEq] at happ
      subst happ
      simp only [engineMeasure, List.map_cons, List.sum_cons, frameWeight_root, frameWeight_compound, frameWeight_list]
      omega
    | compound acc pendingName =>
      have hsr' := hsr
      simp only [stepRead] at hsr'
      obtain ⟨tagTypeId, inp2, hu1, hsr'⟩ := bindRead_eq_ok hsr'
      obtain ⟨hl1, _⟩ := read_big_endian_unsigned_int_eq_ok hu1
      split at hsr'
      · -- End byte: finish
        simp only [Except.ok.injEq, Prod.mk.injEq] at hsr'
        obtain ⟨heff, hinp⟩ := hsr'
        subst heff; subst hinp
        simp only [applyEffect] at happ
        obtain ⟨parent, rest2, parent', slot', hrest, hadd, hst'⟩ := finish_tag_eq_ok happ
        subst hrest; subst hst'
        have hw := add_tag_weight hadd
        simp only [engineMeasure, List.map_cons, List.sum_cons, frameWeight_root, frameWeight_compound, frameWeight_list, hw]
        omega
      · obtain ⟨name, inp3, hrs, hsr'⟩ := bindRead_eq_ok hsr'
        have hl3 : inp3.length ≤ inp2.length := rest_length_le consumesUpTo_read_string hrs
        split at hsr'
        · -- container entry: push
          obtain ⟨child, inp4, hnr, hsr'⟩ := bindRead_eq_ok hsr'
          obtain ⟨hl4, hwc, _, _⟩ := new_read_state_for_eq_ok hnr
          simp only [Except.ok.injEq, Prod.mk.injEq] at hsr'
          obtain ⟨heff, hinp⟩ := hsr'
          subst heff; subst hinp
          simp only [applyEffect, Except.ok.injEq] at happ
          subst happ
          simp only [engineMeasure, List.map_cons, List.sum_cons, frameWeight_root, frameWeight_compound, frameWeight_list]
          omega
        · -- simple entry: replace self
          obtain ⟨t, inp4, hst, hsr'⟩ := bindRead_eq_ok hsr'
          have hl4 : inp4.length ≤ inp3.length :=
            rest_length_le (consumesUpTo_read_simple_tag _) hst
          simp only [Except.ok.injEq, Prod.mk.injEq] at hsr'
          obtain ⟨heff, hinp⟩ := hsr'
          subst heff; subst hinp
          simp only [applyEffect, Except.ok.injEq] at happ
          subst happ
          simp only [engineMeasure, List.map_cons, List.sum_cons, frameWeight_root, frameWeight_compound, frameWeight_list]
          omega
    | list elemKind acc remaining =>
      have hsr' := hsr
      simp only [stepRead] at hsr'
      split at hsr'
      · rename_i hek
        cases remaining with
        | zero =>
          simp only [Except.ok.injEq, Prod.mk.injEq] at hsr'
          obtain ⟨heff, hinp⟩ := hsr'
          subst heff; subst hinp
          simp only [applyEffect] at happ
          obtain ⟨parent, rest2, parent', slot', hrest, hadd, hst'⟩ := finish_tag_eq_ok happ
          subst hrest; subst hst'
          have hw := add_tag_weight hadd
          simp only [engineMeasure, List.map_cons, List.sum_cons, frameWeight_root, frameWeight_compound, frameWeight_list, hw]
          omega
        | succ r =>
          obtain ⟨child, inp2, hnr, hsr'⟩ := bindRead_eq_ok hsr'
          obtain ⟨hl2, hwc, h9, h10⟩ := new_read_state_for_eq_ok hnr
          simp only [Except.ok.injEq, Prod.mk.injEq] at hsr'
          obtain ⟨heff, hinp⟩ := hsr'
          subst heff; subst hinp
          simp only [applyEffect, Except.ok.injEq] at happ
          subst happ
          rcases hek with hek | hek
          · -- element kind Compound: child frame costs 1, remaining decremented
            obtain ⟨hchild, hrest⟩ := h10 hek
            subst hchild; subst hrest
            simp only [engineMeasure, List.map_cons, List.sum_cons, frameWeight_root, frameWeight_compound, frameWeight_list]
            omega
          · -- element kind List: 5 bytes consumed, child weight < 2^33
            have h5 := h9 hek
            simp only [engineMeasure, List.map_cons, List.sum_cons, frameWeight_root, frameWeight_compound, frameWeight_list]
            omega
      · -- simple element kind: one batched pass, then finish
        obtain ⟨ts, inp2, hrl, hsr'⟩ := bindRead_eq_ok hsr'
        have hl2 : inp2.length ≤ inp.length :=
          rest_length_le (consumesUpTo_read_list_elems _ _) hrl
        simp only [Except.ok.injEq, Prod.mk.injEq] at hsr'
        obtain ⟨heff, hinp⟩ := hsr'
        subst heff; subst hinp
        simp only [applyEffect] at happ
        obtain ⟨parent, rest2, parent', slot', hrest, hadd, hst'⟩ := finish_tag_eq_ok happ
        subst hrest; subst hst'
        have hw := add_tag_weight hadd
        simp only [engineMeasure, List.map_cons, List.sum_cons, frameWeight_root, frameWeight_compound, frameWeight_list, hw]
        omega

/-! The engine never raises the artificial `outOfFuel` error from its own code:
only the fuel counter of `process_read_state` can produce it. -/

theorem noFuel_bindRead {α β : Type} {x : Except DErr (α × Bytes)}
    {g : α → Bytes → Except DErr β} (hx : x ≠ .error .outOfFuel)
    (hg : ∀ a r, g a r ≠ .error .outOfFuel) : bindRead x g ≠ .error .outOfFuel := by
  cases x with
  | error e => simpa [bindRead] using hx
  | ok p => exact hg p.1 p.2

theorem noFuel_bindExcept {α β : Type} {x : Except DErr α}
    {g : α → Except DErr β} (hx : x ≠ .error .outOfFuel)
    (hg : ∀ a, g a ≠ .error .outOfFuel) : bindExcept x g ≠ .error .outOfFuel := by
  cases x with
  | error e => simpa [bindExcept] using hx
  | ok a => exact hg a

theorem noFuel_readBytes (n : Nat) (inp : Bytes) : readBytes n inp ≠ .error .outOfFuel := by
  unfold readBytes
  split <;> simp

theorem noFuel_read_big_endian (size : Nat) (inp : Bytes) :
    read_big_endian_unsigned_int size inp ≠ .error .outOfFuel :=
  noFuel_bindRead (noFuel_readBytes size inp) (fun _ _ => by simp)

theorem noFuel_read_simple_payload (size : Nat) (inp : Bytes) :
    read_simple_payload size inp ≠ .error .outOfFuel :=
  noFuel_bindRead (noFuel_read_big_endian size inp) (fun _ _ => by simp)

theorem noFuel_read_string (inp : Bytes) : read_string inp ≠ .error .outOfFuel :=
  noFuel_bindRead (noFuel_read_big_endian 2 inp) (fun len r => noFuel_readBytes len r)

theorem noFuel_read_byte_array_tag (inp : Bytes) : read_byte_array_tag inp ≠ .error .outOfFuel :=
  noFuel_bindRead (noFuel_read_big_endian 4 inp)
    (fun len r => noFuel_bindRead (noFuel_readBytes len r) (fun _ _ => by simp))

theorem noFuel_read_int_array_elems (n : Nat) (inp : Bytes) :
    read_int_array_elems n inp ≠ .error .outOfFuel := by
  induction n generalizing inp with
  | zero => simp [read_int_array_elems]
  | succ n ih =>
    exact noFuel_bindRead (noFuel_read_big_endian 4 inp)
      (fun enc r => noFuel_bindRead (ih r) (fun _ _ => by simp))

theorem noFuel_read_int_array_tag (inp : Bytes) : read_int_array_tag inp ≠ .error .outOfFuel :=
  noFuel_bindRead (noFuel_read_big_endian 4 inp)
    (fun len r => noFuel_bindRead (noFuel_read_int_array_elems len r) (fun _ _ => by simp))

theorem noFuel_read_float_raw (size : Nat) (inp : Bytes) :
    read_float_raw size inp ≠ .error .outOfFuel :=
  noFuel_readBytes size inp

theorem noFuel_read_simple_tag (tagType : Nat) (inp : Bytes) :
    read_simple_tag tagType inp ≠ .error .outOfFuel := by
  unfold read_simple_tag
  split
  all_goals first
    | exact noFuel_bindRead (noFuel_read_simple_payload _ _) (fun _ _ => by simp)
    | exact noFuel_bindRead (noFuel_read_float_raw _ _) (fun _ _ => by simp)
    | exact noFuel_read_byte_array_tag _
    | exact noFuel_bindRead (noFuel_read_string _) (fun _ _ => by simp)
    | exact noFuel_read_int_array_tag _
    | simp

theorem noFuel_new_list_read_state (innerTagType length : Nat) :
    new_list_read_state innerTagType length ≠ .error .outOfFuel := by
  unfold new_list_read_state
  split
  · simp
  · split <;> simp

theorem noFuel_new_read_state_for (tagType : Nat) (inp : Bytes) :
    new_read_state_for tagType inp ≠ .error .outOfFuel := by
  unfold new_read_state_for
  split
  · simp
  · split
    · refine noFuel_bindRead (noFuel_read_big_endian 1 inp) (fun itt r => ?_)
      refine noFuel_bindRead (noFuel_read_big_endian 4 r) (fun len r2 => ?_)
      exact noFuel_bindExcept (noFuel_new_list_read_state itt len) (fun _ => by simp)
    · simp

theorem noFuel_read_list_elems (elemKind n : Nat) (inp : Bytes) :
    read_list_elems elemKind n inp ≠ .error .outOfFuel := by
  induction n generalizing inp with
  | zero => simp [read_list_elems]
  | succ n ih =>
    refine noFuel_bindRead (noFuel_read_simple_tag elemKind inp) (fun t r => ?_)
    split
    · exact noFuel_bindRead (ih r) (fun _ _ => by simp)
    · simp

theorem noFuel_stepRead (fr : Frame) (inp : Bytes) : stepRead fr inp ≠ .error .outOfFuel := by
  cases fr with
  | root => simp [stepRead]
  | compound acc pendingName =>
    show stepRead (.compound acc pendingName) inp ≠ .error .outOfFuel
    simp only [stepRead]
    refine noFuel_bindRead (noFuel_read_big_endian 1 inp) (fun tagTypeId r => ?_)
    split
    · simp
    · refine noFuel_bindRead (noFuel_read_string r) (fun name r2 => ?_)
      split
      · exact noFuel_bindRead (noFuel_new_read_state_for tagTypeId r2) (fun _ _ => by simp)
      · exact noFuel_bindRead (noFuel_read_simple_tag tagTypeId r2) (fun _ _ => by simp)
  | list elemKind acc remaining =>
    show stepRead (.list elemKind acc remaining) inp ≠ .error .outOfFuel
    simp only [stepRead]
    split
    · cases remaining with
      | zero => simp
      | succ r =>
        exact noFuel_bindRead (noFuel_new_read_state_for elemKind inp) (fun _ _ => by simp)
    · exact noFuel_bindRead (noFuel_read_list_elems elemKind remaining inp) (fun _ _ => by simp)

theorem noFuel_add_tag (fr : Frame) (slot : Option Tag) (t : Tag) :
    add_tag fr slot t ≠ .error .outOfFuel := by
  cases fr with
  | root => simp [add_tag]
  | compound acc pn => simp [add_tag]
  | list ek acc r =>
    show add_tag (.list ek acc r) slot t ≠ .error .outOfFuel
    simp only [add_tag]
    split <;> simp

theorem noFuel_finish_tag (t : Tag) (below : List Frame) (slot : Option Tag) (inp : Bytes) :
    finish_tag t below slot inp ≠ .error .outOfFuel := by
  cases below with
  | nil => simp [finish_tag]
  | cons parent rest =>
    exact noFuel_bindExcept (noFuel_add_tag parent slot t) (fun _ => by simp)

theorem noFuel_applyEffect (eff : StepEffect) (below : List Frame) (slot : Option Tag)
    (inp : Bytes) : applyEffect eff below slot inp ≠ .error .outOfFuel := by
  cases eff with
  | pop => simp [applyEffect]
  | finish t => exact noFuel_finish_tag t below slot inp
  | push child self => simp [applyEffect]
  | replaceSelf self => simp [applyEffect]

theorem noFuel_continue_read (st : EngineState) : continue_read st ≠ .error .outOfFuel := by
  obtain ⟨inp, stack, slot⟩ := st
  cases stack with
  | nil => simp [continue_read]
  | cons fr rest =>
    exact noFuel_bindRead (noFuel_stepRead fr inp)
      (fun eff r => noFuel_applyEffect eff rest slot r)

/-- With fuel exceeding the termination measure, the drive loop always reaches an
empty stack or a genuine decode error: it never runs out of fuel. -/
theorem process_read_state_ne_fuel :
    ∀ fuel st, engineMeasure st < fuel → process_read_state fuel st ≠ .error .outOfFuel := by
  intro fuel
  induction fuel with
  | zero => intro st h; omega
  | succ n ih =>
    intro st h
    obtain ⟨inp, stack, slot⟩ := st
    cases stack with
    | nil => simp [process_read_state]
    | cons fr rest =>
      show bindExcept (continue_read ⟨inp, fr :: rest, slot⟩)
        (fun st' => process_read_state n st') ≠ .error .outOfFuel
      cases hcr : continue_read ⟨inp, fr :: rest, slot⟩ with
      | error e =>
        simp only [bindExcept_error]
        have hne := noFuel_continue_read ⟨inp, fr :: rest, slot⟩
        rw [hcr] at hne
        simpa using hne
      | ok st' =>
        simp only [bindExcept_ok]
        exact ih st' (by have := engineMeasure_lt_of_continue_read hcr; omega)

/-- Fuel is irrelevant once it suffices: a run that does not fail with
`outOfFuel` computes the same result at any larger fuel. -/
theorem process_read_state_mono :
    ∀ f1 f2 st, f1 ≤ f2 → process_read_state f1 st ≠ .error .outOfFuel →
      process_read_state f2 st = process_read_state f1 st := by
  intro f1
  induction f1 with
  | zero =>
    intro f2 st hle hne
    obtain ⟨inp, stack, slot⟩ := st
    cases stack with
    | nil =>
      cases f2 <;> rfl
    | cons fr rest =>
      exact absurd rfl hne
  | succ n ih =>
    intro f2 st hle hne
    obtain ⟨inp, stack, slot⟩ := st
    cases stack with
    | nil => cases f2 <;> rfl
    | cons fr rest =>
      obtain ⟨f2', rfl⟩ : ∃ f2', f2 = f2' + 1 := ⟨f2 - 1, by omega⟩
      show bindExcept (continue_read ⟨inp, fr :: rest, slot⟩)
          (fun st' => process_read_state f2' st') =
        bindExcept (continue_read ⟨inp, fr :: rest, slot⟩)
          (fun st' => process_read_state n st')
      have hne' : bindExcept (continue_read ⟨inp, fr :: rest, slot⟩)
          (fun st' => process_read_state n st') ≠ .error .outOfFuel := hne
      cases hcr : continue_read ⟨inp, fr :: rest, slot⟩ with
      | error e => simp
      | ok st' =>
        rw [hcr] at hne'
        simp only [bindExcept_ok] at hne' ⊢
        exact ih f2' st' (by omega) hne'

/-! Truncation: a run that succeeds reading more than `j` bytes fails with
`PrematureEof` when the stream is cut off after `j` bytes. -/

theorem applyEffect_input {eff : StepEffect} {below : List Frame} {slot : Option Tag}
    {inp : Bytes} {st' : EngineState} (h : applyEffect eff below slot inp = .ok st') :
    st'.input = inp ∧
      ∀ inp2, applyEffect eff below slot inp2 = .ok ⟨inp2, st'.stack, st'.slot⟩ := by
  cases eff with
  | pop =>
    simp only [applyEffect, Except.ok.injEq] at h
    subst h
    exact ⟨rfl, fun inp2 => rfl⟩
  | finish t =>
    simp only [applyEffect] at h ⊢
    obtain ⟨parent, rest, parent', slot', hb, hadd, hst⟩ := finish_tag_eq_ok h
    subst hb; subst hst
    refine ⟨rfl, fun inp2 => ?_⟩
    show bindExcept (add_tag parent slot t) (fun ps =>
      (Except.ok (⟨inp2, ps.1 :: rest, ps.2⟩ : EngineState) : Except DErr EngineState)) =
      Except.ok ⟨inp2, (⟨inp, parent' :: rest, slot'⟩ : EngineState).stack,
        (⟨inp, parent' :: rest, slot'⟩ : EngineState).slot⟩
    rw [hadd, bindExcept_ok]
  | push child self =>
    simp only [applyEffect, Except.ok.injEq] at h
    subst h
    exact ⟨rfl, fun inp2 => rfl⟩
  | replaceSelf self =>
    simp only [applyEffect, Except.ok.injEq] at h
    subst h
    exact ⟨rfl, fun inp2 => rfl⟩

theorem process_read_state_take :
    ∀ fuel st slotOut rem j, process_read_state fuel st = .ok (slotOut, rem) →
      j + rem.length < st.input.length →
      process_read_state fuel ⟨st.input.take j, st.stack, st.slot⟩ = .error .prematureEof := by
  intro fuel
  induction fuel with
  | zero =>
    intro st slotOut rem j h hj
    obtain ⟨inp, stack, slot⟩ := st
    cases stack with
    | nil =>
      have h' : (Except.ok (slot, inp) : Except DErr (Option Tag × Bytes)) =
          .ok (slotOut, rem) := h
      simp only [Except.ok.injEq, Prod.mk.injEq] at h'
      obtain ⟨_, hr⟩ := h'
      subst hr
      simp only at hj
      omega
    | cons fr rest => exact absurd h (by simp [process_read_state])
  | succ n ih =>
    intro st slotOut rem j h hj
    obtain ⟨inp, stack, slot⟩ := st
    cases stack with
    | nil =>
      have h' : (Except.ok (slot, inp) : Except DErr (Option Tag × Bytes)) =
          .ok (slotOut, rem) := h
      simp only [Except.ok.injEq, Prod.mk.injEq] at h'
      obtain ⟨_, hr⟩ := h'
      subst hr
      simp only at hj
      omega
    | cons fr rest =>
      have h' : bindExcept (continue_read ⟨inp, fr :: rest, slot⟩)
          (fun st' => process_read_state n st') = .ok (slotOut, rem) := h
      obtain ⟨st', hcr, hrun⟩ := bindExcept_eq_ok h'
      have hcr' : bindRead (stepRead fr inp)
          (fun eff i => applyEffect eff rest slot i) = .ok st' := hcr
      obtain ⟨eff, inp1, hsr, happ⟩ := bindRead_eq_ok hcr'
      obtain ⟨hinp1, happ2⟩ := applyEffect_input happ
      obtain ⟨c, hclen, hcrest, hctake⟩ := consumesUpTo_stepRead fr inp eff inp1 hsr
      have hjle : j ≤ inp.length := by simp only at hj; omega
      show bindExcept (continue_read ⟨(inp.take j : Bytes), fr :: rest, slot⟩)
          (fun st' => process_read_state n st') = .error .prematureEof
      have hsr_t := hctake j hjle
      rcases le_or_lt c j with hcj | hcj
      · rw [if_pos hcj] at hsr_t
        have hcrt : continue_read ⟨inp.take j, fr :: rest, slot⟩ =
            .ok ⟨(inp.take j).drop c, st'.stack, st'.slot⟩ := by
          show bindRead (stepRead fr (inp.take j))
            (fun eff i => applyEffect eff rest slot i) = _
          rw [hsr_t, bindRead_ok]
          exact happ2 _
        rw [hcrt, bindExcept_ok]
        have hin : (inp.take j).drop c = st'.input.take (j - c) := by
          rw [List.drop_take, ← hcrest, ← hinp1]
        rw [hin]
        exact ih st' slotOut rem (j - c) hrun
          (by simp only at hj ⊢; rw [hinp1]; omega)
      · rw [if_neg (show ¬ c ≤ j by omega)] at hsr_t
        have hcrt : continue_read ⟨inp.take j, fr :: rest, slot⟩ =
            .error .prematureEof := by
          show bindRead (stepRead fr (inp.take j))
            (fun eff i => applyEffect eff rest slot i) = _
          rw [hsr_t]
          rfl
        rw [hcrt]
        rfl

/-! Evaluation lemmas: behavior of the readers on explicitly structured streams. -/

theorem readU1_cons (b : Nat) (rest : Bytes) :
    read_big_endian_unsigned_int 1 (b :: rest) = .ok (b % 256, rest) := by
  unfold read_big_endian_unsigned_int readBytes
  simp

theorem readU1_nil : read_big_endian_unsigned_int 1 [] = .error .prematureEof := rfl

theorem specEncodeBE_two (n : Nat) : specEncodeBE 2 n = [n / 256 % 256, n % 256] := by
  norm_num [specEncodeBE, List.range_succ]

theorem specEncodeBE_four (n : Nat) :
    specEncodeBE 4 n = [n / 16777216 % 256, n / 65536 % 256, n / 256 % 256, n % 256] := by
  norm_num [specEncodeBE, List.range_succ]

theorem readU2_encode {n : Nat} (r : Bytes) (h : n < 2 ^ 16) :
    read_big_endian_unsigned_int 2 (specEncodeBE 2 n ++ r) = .ok (n, r) := by
  rw [specEncodeBE_two]
  unfold read_big_endian_unsigned_int
  rw [show (2 : Nat) = ([n / 256 % 256, n % 256] : Bytes).length from rfl, readBytes_append,
    bindRead_ok]
  simp only [List.foldl_cons, List.foldl_nil, Except.ok.injEq, Prod.mk.injEq]
  exact ⟨by omega, trivial⟩

theorem readU4_encode {n : Nat} (r : Bytes) (h : n < 2 ^ 32) :
    read_big_endian_unsigned_int 4 (specEncodeBE 4 n ++ r) = .ok (n, r) := by
  rw [specEncodeBE_four]
  unfold read_big_endian_unsigned_int
  rw [show (4 : Nat) =
      ([n / 16777216 % 256, n / 65536 % 256, n / 256 % 256, n % 256] : Bytes).length from rfl,
    readBytes_append, bindRead_ok]
  simp only [List.foldl_cons, List.foldl_nil, Except.ok.injEq, Prod.mk.injEq]
  exact ⟨by omega, trivial⟩

theorem read_string_encode {name : Bytes} (r : Bytes) (h : name.length < 2 ^ 16) :
    read_string (specEncodeBE 2 name.length ++ (name ++ r)) = .ok (name, r) := by
  unfold read_string
  rw [readU2_encode _ h, bindRead_ok]
  exact readBytes_append name r

/-- Helper: the fuel `read_nbt` grants its engine run suffices on any truncated
state with the same stack, so the truncated run's own fuel gives the same
result. -/
theorem process_read_state_fuel_irrelevant {st : EngineState} {fuel : Nat}
    (hfuel : engineMeasure st < fuel) :
    process_read_state fuel st = process_read_state (engineMeasure st + 1) st := by
  rcases le_or_lt fuel (engineMeasure st + 1) with hle | hlt
  · have : fuel = engineMeasure st + 1 := by omega
    rw [this]
  · exact process_read_state_mono (engineMeasure st + 1) fuel st (by omega)
      (process_read_state_ne_fuel _ _ (by omega))

/-- Claim C4 (amended): if `read_nbt` decodes a stream successfully, consuming
every byte, and the root kind byte is List or Compound, then decoding any strict
prefix of that stream fails with `PrematureEof` — never a wrong tree, never a
crash.  (The restriction to container roots is forced: for any other root kind
the payload is never read, so truncation inside the payload still succeeds; see
the counterexample.) -/
theorem C4_truncation_safety :
    ∀ (inp : Bytes) (root : RootTag) (b : Nat),
      inp.head? = some b → (b % 256 = 9 ∨ b % 256 = 10) →
      read_nbt inp = .ok (root, []) →
      ∀ j, j < inp.length → read_nbt (inp.take j) = .error .prematureEof := by
  intro inp root b hhead hb h j hj
  cases inp with
  | nil => simp at hhead
  | cons b0 tail =>
    have hb0 : b0 = b := by simpa using hhead
    rw [← hb0] at hb
    have h1 : bindRead (read_big_endian_unsigned_int 1 (b0 :: tail)) (fun tagTypeId inp =>
        bindRead (read_string inp) fun name inp =>
          if tagTypeId = 9 ∨ tagTypeId = 10 then
            bindRead (new_read_state_for tagTypeId inp) fun fr inp =>
              bindRead (process_read_state
                  (engineMeasure { input := inp, stack := [fr, .root], slot := none } + 1)
                  { input := inp, stack := [fr, .root], slot := none }) fun slot inp =>
                .ok ({ name := name, tag := slot }, inp)
          else .ok ({ name := name, tag := none }, inp)) = .ok (root, []) := h
    rw [readU1_cons, bindRead_ok] at h1
    obtain ⟨name, inp1, hrs, h1⟩ := bindRead_eq_ok h1
    rw [if_pos hb] at h1
    obtain ⟨fr, inp2, hnr, h1⟩ := bindRead_eq_ok h1
    obtain ⟨slotv, inpF, hproc, h1⟩ := bindRead_eq_ok h1
    have h1' : (Except.ok ({ name := name, tag := slotv }, inpF) :
        Except DErr (RootTag × Bytes)) = .ok (root, []) := h1
    simp only [Except.ok.injEq, Prod.mk.injEq] at h1'
    obtain ⟨hroot, hinpF⟩ := h1'
    subst hinpF
    obtain ⟨cs, hcslen, hcsrest, hcstake⟩ := consumesUpTo_read_string tail name inp1 hrs
    obtain ⟨cn, hcnlen, hcnrest, hcntake⟩ :=
      consumesUpTo_new_read_state_for (b0 % 256) inp1 fr inp2 hnr
    have hjtail : j < tail.length + 1 := by simpa using hj
    cases j with
    | zero => rfl
    | succ j' =>
      rw [List.take_succ_cons]
      show bindRead (read_big_endian_unsigned_int 1 (b0 :: tail.take j')) (fun tagTypeId inp =>
          bindRead (read_string inp) fun name inp =>
            if tagTypeId = 9 ∨ tagTypeId = 10 then
              bindRead (new_read_state_for tagTypeId inp) fun fr inp =>
                bindRead (process_read_state
                    (engineMeasure { input := inp, stack := [fr, .root], slot := none } + 1)
                    { input := inp, stack := [fr, .root], slot := none }) fun slot inp =>
                  .ok (({ name := name, tag := slot } : RootTag), inp)
            else .ok (({ name := name, tag := none } : RootTag), inp)) =
          (.error .prematureEof : Except DErr (RootTag × Bytes))
      rw [readU1_cons, bindRead_ok]
      have hj' : j' ≤ tail.length := by omega
      have hst := hcstake j' hj'
      rcases le_or_lt cs j' with hcs | hcs
      · rw [if_pos hcs] at hst
        rw [hst, bindRead_ok, if_pos hb]
        have hin1 : (tail.take j').drop cs = inp1.take (j' - cs) := by
          rw [List.drop_take, ← hcsrest]
        rw [hin1]
        have hj'' : j' - cs ≤ inp1.length := by omega
        have hnt := hcntake (j' - cs) hj''
        rcases le_or_lt cn (j' - cs) with hcn | hcn
        · rw [if_pos hcn] at hnt
          rw [hnt, bindRead_ok]
          have hin2 : (inp1.take (j' - cs)).drop cn = inp2.take (j' - cs - cn) := by
            rw [List.drop_take, ← hcnrest]
          rw [hin2]
          have hlt : (j' - cs - cn) + ([] : Bytes).length < inp2.length := by
            simp only [List.length_nil]
            omega
          have htr := process_read_state_take
            (engineMeasure { input := inp2, stack := [fr, .root], slot := none } + 1)
            { input := inp2, stack := [fr, .root], slot := none } slotv [] (j' - cs - cn)
            hproc hlt
          have hmeas : engineMeasure
              { input := inp2.take (j' - cs - cn), stack := [fr, Frame.root], slot := none } <
              engineMeasure { input := inp2, stack := [fr, Frame.root], slot := none } + 1 := by
            simp only [engineMeasure, List.length_take]
            have : min (j' - cs - cn) inp2.length ≤ inp2.length := by omega
            have h233 : (0:Nat) < 2 ^ 33 := by norm_num
            nlinarith
          rw [process_read_state_fuel_irrelevant hmeas] at htr
          rw [htr]
          rfl
        · rw [if_neg (show ¬ cn ≤ j' - cs by omega)] at hnt
          rw [hnt]
          rfl
      · rw [if_neg (show ¬ cs ≤ j' by omega)] at hst
        rw [hst]
        rfl

/-- Unfolding of `read_nbt` as its sequenced reader chain. -/
theorem read_nbt_def (inp : Bytes) :
    read_nbt inp = bindRead (read_big_endian_unsigned_int 1 inp) (fun tagTypeId inp =>
      bindRead (read_string inp) fun name inp =>
        if tagTypeId = 9 ∨ tagTypeId = 10 then
          bindRead (new_read_state_for tagTypeId inp) fun fr inp =>
            bindRead (process_read_state
                (engineMeasure { input := inp, stack := [fr, .root], slot := none } + 1)
                { input := inp, stack := [fr, .root], slot := none }) fun slot inp =>
              .ok (({ name := name, tag := slot } : RootTag), inp)
        else .ok (({ name := name, tag := none } : RootTag), inp)) := rfl

/-- On a stream whose root kind byte is neither 9 nor 10, `read_nbt` consumes the
kind byte and the encoded name, then stops with a null tag. -/
theorem read_nbt_non_container (b : Nat) (name rest : Bytes) (h9 : b % 256 ≠ 9)
    (h10 : b % 256 ≠ 10) (hlen : name.length < 2 ^ 16) :
    read_nbt (b :: (specEncodeBE 2 name.length ++ (name ++ rest))) =
      .ok ({ name := name, tag := none }, rest) := by
  rw [read_nbt_def, readU1_cons, bindRead_ok, read_string_encode rest hlen, bindRead_ok,
    if_neg (not_or.mpr ⟨h9, h10⟩)]

/-- `read_simple_tag` on a kind id above 11 always throws the "Unknown tag type"
error. -/
theorem read_simple_tag_unknown {k : Nat} (hk : 11 < k) (inp : Bytes) :
    read_simple_tag k inp = .error (.unknownTagKind k) := by
  unfold read_simple_tag
  split <;> first | rfl | omega

/-- `new_list_read_state` on an element kind id above 11 always throws the
"Unknown tag type in NBT for list" error. -/
theorem new_list_read_state_unknown {ek : Nat} (hk : 11 < ek) (cnt : Nat) :
    new_list_read_state ek cnt = .error (.unknownTagKind ek) := by
  unfold new_list_read_state
  rw [if_neg (by omega), if_neg (by omega)]

/-- Claim C1 (code-bug evidence): `[1, 0, 0, 42]` is the spec-grammar encoding
of a Byte-rooted document (root kind Byte, empty name, payload 42), yet
`read_nbt` returns a `RootTag` whose tag pointer is null and leaves the payload
byte unread — the decoded value is not reproduced and the promised simple-kind
fast path does not exist in the code. -/
theorem C1_simple_root_payload_unread :
    specEncodeRoot [] (.byteTag 42) = [1, 0, 0, 42] ∧
    read_nbt [1, 0, 0, 42] = .ok ({ name := [], tag := none }, [42]) :=
  ⟨rfl, rfl⟩

/-- Claim C2: for every input stream whose root kind byte is not 9 (List) and
not 10 (Compound) — simple kinds 1–8 and 11, End (0), and ids outside [0,11]
alike — `read_nbt` consumes exactly the one kind byte plus the length-prefixed
root name, raises no error for that kind id, and returns a `RootTag` whose tag
pointer is null; the root payload bytes are never read (`rest` is returned
untouched). -/
theorem C2_non_container_root :
    ∀ (b : Nat) (name rest : Bytes), b % 256 ≠ 9 → b % 256 ≠ 10 →
      name.length < 2 ^ 16 →
      read_nbt (b :: (specEncodeBE 2 name.length ++ (name ++ rest))) =
        .ok ({ name := name, tag := none }, rest) :=
  fun b name rest h9 h10 hlen => read_nbt_non_container b name rest h9 h10 hlen

/-- Witness for C2 at root kind Byte (1), name "x" (0x78), payload byte 99:
the payload byte comes back unconsumed and the tag is null. -/
theorem C2_non_container_root_witness :
    read_nbt [1, 0, 1, 120, 99] = .ok ({ name := [120], tag := none }, [99]) :=
  C2_non_container_root 1 [120] [99] (by decide) (by decide) (by decide)

/-- Claim C4 counterexample: `[1, 0, 0, 42]` is a valid encoded stream per the
spec's wire grammar (Byte root), but decoding its strict prefix `[1, 0, 0]`
(truncated at the payload boundary) succeeds with a null-tag `RootTag` instead
of failing with `PrematureEof` — because the root payload is never read. -/
theorem C4_truncation_counterexample :
    specEncodeRoot [] (.byteTag 42) = [1, 0, 0, 42] ∧
    read_nbt [1, 0, 0] = .ok ({ name := [], tag := none }, []) :=
  ⟨rfl, rfl⟩

/-- Witness for the amended C4 on the 4-byte empty-compound document truncated
after 2 bytes. -/
theorem C4_truncation_safety_witness : read_nbt [10, 0] = .error .prematureEof :=
  C4_truncation_safety [10, 0, 0, 0] { name := [], tag := some (.compoundTag []) } 10
    rfl (Or.inr rfl) rfl 2 (by norm_num)

/-- Claim C6 (amended): a kind id outside [0,11] fails the decode with
UnknownTagKind where a kind id is read at a compound entry (`read_simple_tag`
dispatch, after the entry name) and at a list element kind
(`new_list_read_state`); at the root header, however, no kind check occurs: any
non-List/non-Compound id — including ids outside [0,11] — yields an error-free
`RootTag` with a null tag. -/
theorem C6_unknown_kind :
    (∀ (k : Nat) (inp : Bytes), 11 < k →
      read_simple_tag k inp = .error (.unknownTagKind k)) ∧
    (∀ (ek cnt : Nat), 11 < ek →
      new_list_read_state ek cnt = .error (.unknownTagKind ek)) ∧
    (∀ (b : Nat) (name inp : Bytes) (acc : List (Bytes × Tag)) (pn : Bytes),
      11 < b % 256 → name.length < 2 ^ 16 →
      stepRead (.compound acc pn) (b :: (specEncodeBE 2 name.length ++ (name ++ inp))) =
        .error (.unknownTagKind (b % 256))) ∧
    (∀ (b : Nat) (name rest : Bytes), 11 < b % 256 → name.length < 2 ^ 16 →
      read_nbt (b :: (specEncodeBE 2 name.length ++ (name ++ rest))) =
        .ok ({ name := name, tag := none }, rest)) := by
  refine ⟨fun k inp hk => read_simple_tag_unknown hk inp,
    fun ek cnt hk => new_list_read_state_unknown hk cnt,
    fun b name inp acc pn hk hlen => ?_,
    fun b name rest hk hlen =>
      read_nbt_non_container b name rest (by omega) (by omega) hlen⟩
  show bindRead (read_big_endian_unsigned_int 1
      (b :: (specEncodeBE 2 name.length ++ (name ++ inp)))) (fun tagTypeId inp =>
        if tagTypeId = 0 then .ok (.finish (.compoundTag acc), inp)
        else
          bindRead (read_string inp) fun name inp =>
            if tagTypeId = 10 ∨ tagTypeId = 9 then
              bindRead (new_read_state_for tagTypeId inp) fun child inp =>
                .ok (.push child (.compound acc name), inp)
            else
              bindRead (read_simple_tag tagTypeId inp) fun t inp =>
                .ok (.replaceSelf (.compound (mapInsert acc name t) name), inp)) =
      (.error (.unknownTagKind (b % 256)) : Except DErr (StepEffect × Bytes))
  rw [readU1_cons, bindRead_ok, if_neg (by omega), read_string_encode inp hlen, bindRead_ok,
    if_neg (by omega), read_simple_tag_unknown (by omega : 11 < b % 256)]
  rfl

/-- Claim C6 counterexample: at the root header an id outside [0,11] (here 12)
raises no error at all — `read_nbt` succeeds with a null tag — contradicting
"anywhere a kind id is expected". -/
theorem C6_unknown_kind_counterexample :
    read_nbt [12, 0, 0] = .ok ({ name := [], tag := none }, []) := rfl

/-- Witness for C6 at kind id 12 in all three positions. -/
theorem C6_unknown_kind_witness :
    read_simple_tag 12 [] = .error (.unknownTagKind 12) ∧
    new_list_read_state 12 7 = .error (.unknownTagKind 12) ∧
    stepRead (.compound [] []) [12, 0, 0] = .error (.unknownTagKind 12) ∧
    read_nbt [13, 0, 0] = .ok ({ name := [], tag := none }, []) :=
  ⟨C6_unknown_kind.1 12 [] (by decide),
   C6_unknown_kind.2.1 12 7 (by decide),
   C6_unknown_kind.2.2.1 12 [] [] [] [] (by decide) (by decide),
   C6_unknown_kind.2.2.2 13 [] [] (by decide) (by decide)⟩

/-- Claim C10: the decoder always terminates: with the measure-derived fuel the
drive loop of `process_read_state` always reaches an empty stack or raises a
genuine decode error — it never exhausts its fuel — and consequently `read_nbt`
never reports fuel exhaustion on any finite input stream, well-formed or
malformed. -/
theorem C10_decoder_terminates :
    (∀ st : EngineState, process_read_state (engineMeasure st + 1) st ≠ .error .outOfFuel) ∧
    (∀ inp : Bytes, read_nbt inp ≠ .error .outOfFuel) := by
  constructor
  · intro st
    exact process_read_state_ne_fuel _ st (by omega)
  · intro inp
    rw [read_nbt_def]
    refine noFuel_bindRead (noFuel_read_big_endian 1 inp) (fun tagTypeId r => ?_)
    refine noFuel_bindRead (noFuel_read_string r) (fun name r2 => ?_)
    split
    · refine noFuel_bindRead (noFuel_new_read_state_for tagTypeId r2) (fun fr r3 => ?_)
      exact noFuel_bindRead (process_read_state_ne_fuel _ _ (by omega)) (fun slot r4 => by simp)
    · simp

/-! Two's-complement arithmetic (claim C7). -/

/-- The bitwise sign-bit test of the source equals the arithmetic comparison
with `2^(k-1)` for width-`k` values. -/
theorem and_msb_iff {k v : Nat} (hk : 0 < k) (hv : v < 2 ^ k) :
    (v &&& 2 ^ (k - 1) ≠ 0) ↔ 2 ^ (k - 1) ≤ v := by
  have hP : 0 < 2 ^ (k - 1) := Nat.pos_pow_of_pos _ (by norm_num)
  have h2P : 2 ^ k = 2 * 2 ^ (k - 1) := by
    rw [← pow_succ']
    congr 1
    omega
  rw [Nat.and_two_pow, Nat.testBit_to_div_mod]
  rcases Nat.lt_or_ge v (2 ^ (k - 1)) with h | h
  · rw [Nat.div_eq_of_lt h]
    simp
    omega
  · have h1 : v / 2 ^ (k - 1) = 1 := by
      have hlo : 1 ≤ v / 2 ^ (k - 1) := (Nat.one_le_div_iff hP).mpr h
      have hhi : v / 2 ^ (k - 1) < 2 := by
        rw [Nat.div_lt_iff_lt_mul hP]
        omega
      omega
    rw [h1]
    simp [hP.ne', h]

/-- The source's sign decode equals the canonical two's-complement reading for
every positive width and in-range raw value. -/
theorem twos_complement_decode_eq_spec (size raw : Nat) (hs : 0 < size)
    (hr : raw < 2 ^ (size * 8)) :
    twos_complement_decode size raw = twosComplementSpec size raw := by
  have hk : 0 < size * 8 := by omega
  have hbit := and_msb_iff hk hr
  simp only [twos_complement_decode, twosComplementSpec]
  rcases Nat.lt_or_ge raw (2 ^ (size * 8 - 1)) with h | h
  · rw [if_neg (by rw [hbit]; omega), if_neg (by omega)]
  · rw [if_pos (hbit.mpr h), if_pos h]
    have hraw1 : 1 ≤ raw := le_trans (Nat.one_le_two_pow) h
    have habs1 : 2 ^ (size * 8) - 1 - raw + 1 = 2 ^ (size * 8) - raw := by omega
    have habs2 : 2 ^ (size * 8) - raw < 2 ^ (size * 8) := by omega
    rw [habs1, Nat.mod_eq_of_lt habs2]
    have hcast : ((2 ^ (size * 8) - raw : Nat) : Int) =
        (2 ^ (size * 8) : Nat) - (raw : Int) := by
      push_cast [Nat.cast_sub (le_of_lt hr)]
      ring
    rw [hcast]
    push_cast
    ring

/-- The swapped-template-parameter instantiation used for IntArray elements also
computes the canonical two's-complement value on every 32-bit pattern. -/
theorem int_array_elem_decode_eq_spec (enc : Nat) (henc : enc < 2 ^ 32) :
    int_array_elem_decode enc = twosComplementSpec 4 enc := by
  have hbit := and_msb_iff (show 0 < 32 by norm_num) henc
  norm_num at hbit
  simp only [int_array_elem_decode, uint32ToInt32, twosComplementSpec]
  norm_num
  rcases Nat.lt_or_ge enc 2147483648 with h | h
  · have hx : enc &&& 2147483648 = 0 := by
      by_contra hc
      exact absurd (hbit.mp hc) (by omega)
    rw [if_pos hx]
    split_ifs <;> omega
  · rw [if_neg (hbit.mpr h)]
    split_ifs <;> omega

/-- Claim C7: for every width in {1,2,4,8} (indeed any positive width) and every
in-range raw value, the two's-complement decode returns the canonical signed
reading — `-(complement+1)` when the sign bit is set, the raw value otherwise;
the fixture bytes 0xFF / 0x80 0x00 / 0x7F 0xFF decode to -1 / -32768 / 32767;
and every IntArray element decodes to the big-endian two's-complement
interpretation of its four bytes. -/
theorem C7_twos_complement :
    (∀ size raw, 0 < size → raw < 2 ^ (size * 8) →
      twos_complement_decode size raw = twosComplementSpec size raw) ∧
    read_simple_tag 1 [255] = .ok (.byteTag (-1), []) ∧
    read_simple_tag 2 [128, 0] = .ok (.shortTag (-32768), []) ∧
    read_simple_tag 2 [127, 255] = .ok (.shortTag 32767, []) ∧
    (∀ enc, enc < 2 ^ 32 → int_array_elem_decode enc = twosComplementSpec 4 enc) := by
  refine ⟨twos_complement_decode_eq_spec, rfl, rfl, rfl, int_array_elem_decode_eq_spec⟩

/-- Witness for C7 at concrete widths and values. -/
theorem C7_twos_complement_witness :
    twos_complement_decode 2 5 = twosComplementSpec 2 5 ∧
    int_array_elem_decode 4294967295 = twosComplementSpec 4 4294967295 :=
  ⟨C7_twos_complement.1 2 5 (by norm_num) (by norm_num),
   C7_twos_complement.2.2.2.2 4294967295 (by norm_num)⟩

/-! Claim C3: a List whose declared element kind is End. -/

/-- Claim C3 (amended): when the engine begins a List whose declared element
kind is End (0), the decode fails with the InvalidListElementKind error
regardless of the declared count — including count 0.  `new_list_read_state`
throws before the count is even inspected, and end to end a List root with
element kind End fails after its element-kind and count bytes are consumed. -/
theorem C3_list_of_end_always_fails :
    (∀ cnt : Nat, new_list_read_state 0 cnt = .error .invalidListElementKind) ∧
    (∀ (name : Bytes) (cnt : Nat) (rest : Bytes), name.length < 2 ^ 16 → cnt < 2 ^ 32 →
      read_nbt (9 :: (specEncodeBE 2 name.length ++ (name ++ (0 :: (specEncodeBE 4 cnt ++ rest))))) =
        .error .invalidListElementKind) := by
  refine ⟨fun cnt => rfl, fun name cnt rest hlen hcnt => ?_⟩
  have hnr : new_read_state_for (9 % 256) (0 :: (specEncodeBE 4 cnt ++ rest)) =
      .error .invalidListElementKind := by
    unfold new_read_state_for
    rw [if_neg (by norm_num), if_pos (by norm_num), readU1_cons, bindRead_ok,
      readU4_encode rest hcnt, bindRead_ok]
    rfl
  rw [read_nbt_def, readU1_cons, bindRead_ok, read_string_encode _ hlen, bindRead_ok,
    if_pos (by norm_num), hnr]
  rfl

/-- Claim C3 counterexample: the claim asserts that element kind End with
count 0 decodes successfully to an empty list, but the 8-byte stream
(List root, empty name, elemKind End, count 0) fails with
InvalidListElementKind. -/
theorem C3_list_of_end_counterexample :
    read_nbt [9, 0, 0, 0, 0, 0, 0, 0] = .error .invalidListElementKind := rfl

/-- Witness for C3 with a one-byte name and count 3. -/
theorem C3_list_of_end_witness :
    read_nbt [9, 0, 1, 120, 0, 0, 0, 0, 3] = .error .invalidListElementKind :=
  C3_list_of_end_always_fails.2 [120] 3 [] (by norm_num) (by norm_num)

/-! Engine activation behavior on explicitly structured streams (claims C5, C8). -/

theorem read_string_nil (r : Bytes) : read_string (0 :: (0 :: r)) = .ok ([], r) := rfl

theorem read_simple_tag_byte (b : Nat) (r : Bytes) :
    read_simple_tag 1 (b :: r) =
      .ok (.byteTag (twos_complement_decode 1 (b % 256)), r) := by
  show bindRead (read_simple_payload 1 (b :: r))
      (fun v inp => (.ok ((Tag.byteTag v : Tag), inp) : Except DErr (Tag × Bytes))) =
    .ok (.byteTag (twos_complement_decode 1 (b % 256)), r)
  unfold read_simple_payload
  rw [readU1_cons, bindRead_ok, bindRead_ok]

theorem stepRead_compound_end (acc : List (Bytes × Tag)) (pn : Bytes) (b : Nat) (inp : Bytes)
    (h0 : b % 256 = 0) :
    stepRead (.compound acc pn) (b :: inp) = .ok (.finish (.compoundTag acc), inp) := by
  simp only [stepRead]
  rw [readU1_cons, bindRead_ok, if_pos h0]

theorem stepRead_compound_simple (acc : List (Bytes × Tag)) (pn : Bytes) (b : Nat)
    (name inp inp' : Bytes) (t : Tag) (h0 : b % 256 ≠ 0) (h9 : b % 256 ≠ 9)
    (h10 : b % 256 ≠ 10) (hlen : name.length < 2 ^ 16)
    (hst : read_simple_tag (b % 256) inp = .ok (t, inp')) :
    stepRead (.compound acc pn) (b :: (specEncodeBE 2 name.length ++ (name ++ inp))) =
      .ok (.replaceSelf (.compound (mapInsert acc name t) name), inp') := by
  simp only [stepRead]
  rw [readU1_cons, bindRead_ok, if_neg h0, read_string_encode inp hlen, bindRead_ok,
    if_neg (not_or.mpr ⟨h10, h9⟩), hst, bindRead_ok]

theorem stepRead_compound_push_compound (acc : List (Bytes × Tag)) (pn : Bytes) (b : Nat)
    (name inp : Bytes) (hb : b % 256 = 10) (hlen : name.length < 2 ^ 16) :
    stepRead (.compound acc pn) (b :: (specEncodeBE 2 name.length ++ (name ++ inp))) =
      .ok (.push (.compound [] []) (.compound acc name), inp) := by
  simp only [stepRead]
  rw [readU1_cons, bindRead_ok, if_neg (by omega), read_string_encode inp hlen, bindRead_ok,
    if_pos (Or.inl hb), hb]
  rfl

theorem stepRead_compound_push_list (acc : List (Bytes × Tag)) (pn : Bytes) (b ek cnt : Nat)
    (name inp : Bytes) (hb : b % 256 = 9) (hlen : name.length < 2 ^ 16)
    (hek0 : ek % 256 ≠ 0) (hek11 : ek % 256 ≤ 11) (hcnt : cnt < 2 ^ 32) :
    stepRead (.compound acc pn)
        (b :: (specEncodeBE 2 name.length ++ (name ++ (ek :: (specEncodeBE 4 cnt ++ inp))))) =
      .ok (.push (.list (ek % 256) [] cnt) (.compound acc name), inp) := by
  simp only [stepRead]
  rw [readU1_cons, bindRead_ok, if_neg (by omega), read_string_encode _ hlen, bindRead_ok,
    if_pos (Or.inr hb), hb]
  unfold new_read_state_for
  rw [if_neg (by norm_num), if_pos rfl, readU1_cons, bindRead_ok, readU4_encode inp hcnt,
    bindRead_ok]
  unfold new_list_read_state
  rw [if_neg hek0, if_pos hek11]
  rfl

theorem continue_read_cons (inp : Bytes) (fr : Frame) (rest : List Frame) (slot : Option Tag) :
    continue_read ⟨inp, fr :: rest, slot⟩ =
      bindRead (stepRead fr inp) (fun eff i => applyEffect eff rest slot i) := rfl

theorem process_read_state_nil (fuel : Nat) (inp : Bytes) (slot : Option Tag) :
    process_read_state fuel ⟨inp, [], slot⟩ = .ok (slot, inp) := by
  cases fuel <;> rfl

theorem process_read_state_step {st st' : EngineState} (h : continue_read st = .ok st')
    (fuel : Nat) : process_read_state (fuel + 1) st = process_read_state fuel st' := by
  obtain ⟨inp, stack, slot⟩ := st
  cases stack with
  | nil => exact absurd h (by simp [continue_read])
  | cons fr rest =>
    show bindExcept (continue_read ⟨inp, fr :: rest, slot⟩)
      (fun st' => process_read_state fuel st') = _
    rw [h, bindExcept_ok]

/-! Claim C5: duplicate keys inside a Compound. -/

/-- Claim C5 (amended): when a Compound body contains two entries with the same
name, the decoded mapping holds the value of the FIRST occurrence: the later
entry is silently discarded (`std::unordered_map::insert` does not overwrite an
existing key). -/
theorem C5_duplicate_keys_first_wins :
    ∀ (name : Bytes) (b1 b2 : Nat), name.length < 2 ^ 16 →
      read_nbt (10 :: (0 :: (0 :: (1 :: (specEncodeBE 2 name.length ++ (name ++ (b1 ::
          (1 :: (specEncodeBE 2 name.length ++ (name ++ (b2 :: [0]))))))))))) =
        .ok (⟨[], some (.compoundTag
            [(name, .byteTag (twos_complement_decode 1 (b1 % 256)))])⟩, []) := by
  intro name b1 b2 hlen
  have hs1 : continue_read ⟨1 :: (specEncodeBE 2 name.length ++ (name ++ (b1 ::
        (1 :: (specEncodeBE 2 name.length ++ (name ++ (b2 :: [0]))))))),
      [.compound [] [], .root], none⟩ =
      .ok ⟨1 :: (specEncodeBE 2 name.length ++ (name ++ (b2 :: [0]))),
        [.compound [(name, .byteTag (twos_complement_decode 1 (b1 % 256)))] name, .root],
        none⟩ := by
    rw [continue_read_cons,
      stepRead_compound_simple [] [] 1 name _ _ _ (by norm_num) (by norm_num) (by norm_num)
        hlen (read_simple_tag_byte b1 _),
      bindRead_ok]
    rfl
  have hins : mapInsert [(name, Tag.byteTag (twos_complement_decode 1 (b1 % 256)))] name
      (Tag.byteTag (twos_complement_decode 1 (b2 % 256))) =
      [(name, Tag.byteTag (twos_complement_decode 1 (b1 % 256)))] := by
    simp [mapInsert]
  have hs2 : continue_read ⟨1 :: (specEncodeBE 2 name.length ++ (name ++ (b2 :: [0]))),
      [.compound [(name, .byteTag (twos_complement_decode 1 (b1 % 256)))] name, .root],
      none⟩ =
      .ok ⟨[0],
        [.compound [(name, .byteTag (twos_complement_decode 1 (b1 % 256)))] name, .root],
        none⟩ := by
    rw [continue_read_cons,
      stepRead_compound_simple _ name 1 name _ _ _ (by norm_num) (by norm_num) (by norm_num)
        hlen (read_simple_tag_byte b2 _),
      bindRead_ok, hins]
    rfl
  have hs3 : continue_read ⟨[0],
      [.compound [(name, .byteTag (twos_complement_decode 1 (b1 % 256)))] name, .root],
      none⟩ =
      .ok ⟨[], [.root],
        some (.compoundTag [(name, .byteTag (twos_complement_decode 1 (b1 % 256)))])⟩ := by
    rw [continue_read_cons, stepRead_compound_end _ name 0 [] (by norm_num), bindRead_ok]
    rfl
  have hs4 : continue_read ⟨([] : Bytes), [Frame.root],
      some (Tag.compoundTag [(name, .byteTag (twos_complement_decode 1 (b1 % 256)))])⟩ =
      .ok ⟨[], [],
        some (.compoundTag [(name, .byteTag (twos_complement_decode 1 (b1 % 256)))])⟩ := rfl
  obtain ⟨f, hf⟩ : ∃ f, engineMeasure ⟨1 :: (specEncodeBE 2 name.length ++ (name ++ (b1 ::
      (1 :: (specEncodeBE 2 name.length ++ (name ++ (b2 :: [0]))))))),
      [.compound [] [], .root], none⟩ + 1 = f + 4 := by
    refine ⟨engineMeasure ⟨1 :: (specEncodeBE 2 name.length ++ (name ++ (b1 ::
      (1 :: (specEncodeBE 2 name.length ++ (name ++ (b2 :: [0]))))))),
      [.compound [] [], .root], none⟩ + 1 - 4, ?_⟩
    simp [engineMeasure]
    omega
  have hrun : process_read_state (f + 4) ⟨1 :: (specEncodeBE 2 name.length ++ (name ++ (b1 ::
      (1 :: (specEncodeBE 2 name.length ++ (name ++ (b2 :: [0]))))))),
      [.compound [] [], .root], none⟩ =
      .ok (some (.compoundTag [(name, .byteTag (twos_complement_decode 1 (b1 % 256)))]), []) := by
    have e1 := process_read_state_step hs1 (f + 3)
    have e2 := process_read_state_step hs2 (f + 2)
    have e3 := process_read_state_step hs3 (f + 1)
    have e4 := process_read_state_step hs4 f
    rw [show f + 4 = (f + 3) + 1 from rfl] at e1
    rw [e1, e2, e3, e4, process_read_state_nil]
  have hn : new_read_state_for ((10:Nat) % 256) (1 :: (specEncodeBE 2 name.length ++ (name ++
      (b1 :: (1 :: (specEncodeBE 2 name.length ++ (name ++ (b2 :: [0])))))))) =
      .ok (.compound [] [], 1 :: (specEncodeBE 2 name.length ++ (name ++ (b1 ::
        (1 :: (specEncodeBE 2 name.length ++ (name ++ (b2 :: [0])))))))) := rfl
  rw [read_nbt_def, readU1_cons, bindRead_ok, read_string_nil, bindRead_ok,
    if_pos (by norm_num), hn, bindRead_ok, hf, hrun, bindRead_ok]

/-- Claim C5 counterexample: the body holds x -> Byte 1 then x -> Byte 2; the
decoded mapping keeps the first value 1, not the last value 2 as the claim
asserts. -/
theorem C5_duplicate_keys_counterexample :
    read_nbt [10, 0, 0, 1, 0, 1, 120, 1, 1, 0, 1, 120, 2, 0] =
      .ok ({ name := [], tag := some (.compoundTag [([120], .byteTag 1)]) }, []) ∧
    Tag.compoundTag [([120], Tag.byteTag 1)] ≠ Tag.compoundTag [([120], Tag.byteTag 2)] := by
  refine ⟨rfl, ?_⟩
  simp

/-- Witness for C5 with name "x" and payload bytes 1 and 2. -/
theorem C5_duplicate_keys_witness :
    read_nbt [10, 0, 0, 1, 0, 1, 120, 5, 1, 0, 1, 120, 9, 0] =
      .ok ({ name := [], tag := some (.compoundTag [([120], .byteTag 5)]) }, []) :=
  C5_duplicate_keys_first_wins [120] 5 9 (by norm_num)

/-! Claim C8: one activation of a compound frame. -/

/-- Claim C8: on each activation of a compound frame the engine reads one
kind-id byte.  End (0) delivers the (possibly empty) mapping to the frame
beneath — inserted under the parent's pending name when that frame is a
compound, stored as the root result when it is the root frame — and pops the
frame.  A Compound or List entry reads the entry name, pushes a child frame and
remembers the pending name.  Any other (simple) entry reads the name, decodes
the payload inline, and inserts name → value without pushing a frame.  A
compound whose first kind byte is End decodes to an empty mapping. -/
theorem C8_compound_frame_activation :
    (∀ (acc acc2 : List (Bytes × Tag)) (pn pn2 : Bytes) (b : Nat) (inp : Bytes)
        (stk : List Frame) (slot : Option Tag), b % 256 = 0 →
      continue_read ⟨b :: inp, .compound acc pn :: .compound acc2 pn2 :: stk, slot⟩ =
        .ok ⟨inp, .compound (mapInsert acc2 pn2 (.compoundTag acc)) pn2 :: stk, slot⟩) ∧
    (∀ (acc : List (Bytes × Tag)) (pn : Bytes) (b : Nat) (inp : Bytes) (slot : Option Tag),
      b % 256 = 0 →
      continue_read ⟨b :: inp, [.compound acc pn, .root], slot⟩ =
        .ok ⟨inp, [.root], some (.compoundTag acc)⟩) ∧
    (∀ (acc : List (Bytes × Tag)) (pn name : Bytes) (b : Nat) (inp : Bytes)
        (stk : List Frame) (slot : Option Tag), b % 256 = 10 → name.length < 2 ^ 16 →
      continue_read ⟨b :: (specEncodeBE 2 name.length ++ (name ++ inp)),
          .compound acc pn :: stk, slot⟩ =
        .ok ⟨inp, .compound [] [] :: .compound acc name :: stk, slot⟩) ∧
    (∀ (acc : List (Bytes × Tag)) (pn name : Bytes) (b ek cnt : Nat) (inp : Bytes)
        (stk : List Frame) (slot : Option Tag), b % 256 = 9 → name.length < 2 ^ 16 →
        ek % 256 ≠ 0 → ek % 256 ≤ 11 → cnt < 2 ^ 32 →
      continue_read ⟨b :: (specEncodeBE 2 name.length ++
          (name ++ (ek :: (specEncodeBE 4 cnt ++ inp)))), .compound acc pn :: stk, slot⟩ =
        .ok ⟨inp, .list (ek % 256) [] cnt :: .compound acc name :: stk, slot⟩) ∧
    (∀ (acc : List (Bytes × Tag)) (pn name : Bytes) (b : Nat) (inp inp' : Bytes) (t : Tag)
        (stk : List Frame) (slot : Option Tag), b % 256 ≠ 0 → b % 256 ≠ 9 → b % 256 ≠ 10 →
        name.length < 2 ^ 16 → read_simple_tag (b % 256) inp = .ok (t, inp') →
      continue_read ⟨b :: (specEncodeBE 2 name.length ++ (name ++ inp)),
          .compound acc pn :: stk, slot⟩ =
        .ok ⟨inp', .compound (mapInsert acc name t) name :: stk, slot⟩) ∧
    read_nbt [10, 0, 0, 0] = .ok ({ name := [], tag := some (.compoundTag []) }, []) := by
  refine ⟨?_, ?_, ?_, ?_, ?_, rfl⟩
  · intro acc acc2 pn pn2 b inp stk slot h0
    rw [continue_read_cons, stepRead_compound_end acc pn b inp h0, bindRead_ok]
    rfl
  · intro acc pn b inp slot h0
    rw [continue_read_cons, stepRead_compound_end acc pn b inp h0, bindRead_ok]
    rfl
  · intro acc pn name b inp stk slot hb hlen
    rw [continue_read_cons, stepRead_compound_push_compound acc pn b name inp hb hlen,
      bindRead_ok]
    rfl
  · intro acc pn name b ek cnt inp stk slot hb hlen hek0 hek11 hcnt
    rw [continue_read_cons,
      stepRead_compound_push_list acc pn b ek cnt name inp hb hlen hek0 hek11 hcnt,
      bindRead_ok]
    rfl
  · intro acc pn name b inp inp' t stk slot h0 h9 h10 hlen hst
    rw [continue_read_cons,
      stepRead_compound_simple acc pn b name inp inp' t h0 h9 h10 hlen hst, bindRead_ok]
    rfl

/-- Witness for C8: all five activation behaviors at concrete inputs. -/
theorem C8_compound_frame_activation_witness :
    continue_read ⟨[0, 7], [.compound [] [], .compound [] [121]], none⟩ =
      .ok ⟨[7], [.compound [([121], .compoundTag [])] [121]], none⟩ ∧
    continue_read ⟨[0], [.compound [] [], .root], none⟩ =
      .ok ⟨[], [.root], some (.compoundTag [])⟩ ∧
    continue_read ⟨[10, 0, 1, 122], [.compound [] [], .root], none⟩ =
      .ok ⟨[], [.compound [] [], .compound [] [122], .root], none⟩ ∧
    continue_read ⟨[9, 0, 1, 122, 1, 0, 0, 0, 2, 5, 6], [.compound [] [], .root], none⟩ =
      .ok ⟨[5, 6], [.list 1 [] 2, .compound [] [122], .root], none⟩ ∧
    continue_read ⟨[1, 0, 1, 122, 5], [.compound [] [], .root], none⟩ =
      .ok ⟨[], [.compound [([122], .byteTag 5)] [122], .root], none⟩ := by
  refine ⟨?_, ?_, ?_, ?_, ?_⟩
  · exact C8_compound_frame_activation.1 [] [] [] [121] 0 [7] [] none (by norm_num)
  · exact C8_compound_frame_activation.2.1 [] [] 0 [] none (by norm_num)
  · exact C8_compound_frame_activation.2.2.1 [] [] [122] 10 [] [.root] none (by norm_num)
      (by norm_num)
  · exact C8_compound_frame_activation.2.2.2.1 [] [] [122] 9 1 2 [5, 6] [.root] none
      (by norm_num) (by norm_num) (by norm_num) (by norm_num) (by norm_num)
  · exact C8_compound_frame_activation.2.2.2.2.1 [] [] [122] 1 [5] [] (.byteTag 5) [.root]
      none (by norm_num) (by norm_num) (by norm_num) (by norm_num) rfl

/-! Claim C9: list homogeneity of every decoded tree. -/

theorem homogeneousElems_of_forall (ek : Nat) (ts : List Tag)
    (h : ∀ t ∈ ts, kindOf t = ek ∧ homogeneousB t = true) :
    homogeneousElems ek ts = true := by
  induction ts with
  | nil => rfl
  | cons t ts ih =>
    have ht := h t (by simp)
    simp only [homogeneousElems, Bool.and_eq_true]
    exact ⟨⟨by simp [ht.1], ht.2⟩, ih (fun u hu => h u (by simp [hu]))⟩

theorem homogeneousEntries_of_forall (es : List (Bytes × Tag))
    (h : ∀ p ∈ es, homogeneousB p.2 = true) : homogeneousEntries es = true := by
  induction es with
  | nil => rfl
  | cons p es ih =>
    obtain ⟨n, t⟩ := p
    simp only [homogeneousEntries, Bool.and_eq_true]
    exact ⟨h (n, t) (by simp), ih (fun q hq => h q (by simp [hq]))⟩

theorem homogeneousB_compound (acc : List (Bytes × Tag))
    (h : ∀ p ∈ acc, homogeneousB p.2 = true) : homogeneousB (.compoundTag acc) = true := by
  simp only [homogeneousB]
  exact homogeneousEntries_of_forall acc h

theorem homogeneousB_list (ek : Nat) (ts : List Tag)
    (h : ∀ t ∈ ts, kindOf t = ek ∧ homogeneousB t = true) :
    homogeneousB (.listTag ek ts) = true := by
  simp only [homogeneousB]
  exact homogeneousElems_of_forall ek ts h

theorem read_byte_array_tag_fact {inp rest : Bytes} {t : Tag}
    (h : read_byte_array_tag inp = .ok (t, rest)) :
    kindOf t = 7 ∧ homogeneousB t = true := by
  unfold read_byte_array_tag at h
  obtain ⟨len, r1, _, h⟩ := bindRead_eq_ok h
  obtain ⟨data, r2, _, h⟩ := bindRead_eq_ok h
  simp only [Except.ok.injEq, Prod.mk.injEq] at h
  rw [← h.1]
  exact ⟨rfl, rfl⟩

theorem read_int_array_tag_fact {inp rest : Bytes} {t : Tag}
    (h : read_int_array_tag inp = .ok (t, rest)) :
    kindOf t = 11 ∧ homogeneousB t = true := by
  unfold read_int_array_tag at h
  obtain ⟨len, r1, _, h⟩ := bindRead_eq_ok h
  obtain ⟨vals, r2, _, h⟩ := bindRead_eq_ok h
  simp only [Except.ok.injEq, Prod.mk.injEq] at h
  rw [← h.1]
  exact ⟨rfl, rfl⟩

/-- A tag delivered by `read_simple_tag` has the requested kind and is
homogeneous (it contains no list). -/
theorem read_simple_tag_fact {k : Nat} {inp rest : Bytes} {t : Tag}
    (h : read_simple_tag k inp = .ok (t, rest)) :
    kindOf t = k ∧ homogeneousB t = true := by
  unfold read_simple_tag at h
  split at h
  all_goals first
    | exact read_byte_array_tag_fact h
    | exact read_int_array_tag_fact h
    | (obtain ⟨v, r, _, hok⟩ := bindRead_eq_ok h;
       simp only [Except.ok.injEq, Prod.mk.injEq] at hok;
       obtain ⟨ht, _⟩ := hok;
       rw [← ht];
       exact ⟨rfl, rfl⟩)
    | simp at h

/-- Every element produced by the single-pass simple-element loop has the
declared kind and is homogeneous. -/
theorem read_list_elems_fact {ek n : Nat} {inp rest : Bytes} {ts : List Tag}
    (h : read_list_elems ek n inp = .ok (ts, rest)) :
    ∀ t ∈ ts, kindOf t = ek ∧ homogeneousB t = true := by
  induction n generalizing inp ts rest with
  | zero =>
    have h' : (Except.ok (([] : List Tag), inp) : Except DErr (List Tag × Bytes)) =
        .ok (ts, rest) := h
    simp only [Except.ok.injEq, Prod.mk.injEq] at h'
    rw [← h'.1]
    intro t ht
    simp at ht
  | succ n ih =>
    have h' : bindRead (read_simple_tag ek inp) (fun t inp =>
        if ek = 9 ∨ kindOf t = ek then
          bindRead (read_list_elems ek n inp) (fun ts inp => .ok (t :: ts, inp))
        else .error .logicError) = .ok (ts, rest) := h
    obtain ⟨t0, r1, hst, h'⟩ := bindRead_eq_ok h'
    have hf := read_simple_tag_fact hst
    split at h'
    · obtain ⟨ts1, r2, hrl, h'⟩ := bindRead_eq_ok h'
      simp only [Except.ok.injEq, Prod.mk.injEq] at h'
      obtain ⟨hts, _⟩ := h'
      rw [← hts]
      intro u hu
      rcases List.mem_cons.mp hu with rfl | hu
      · exact hf
      · exact ih hrl u hu
    · simp at h'

theorem mapInsert_frameOK {acc : List (Bytes × Tag)} {k : Bytes} {t : Tag}
    (hacc : ∀ p ∈ acc, homogeneousB p.2 = true) (ht : homogeneousB t = true) :
    ∀ p ∈ mapInsert acc k t, homogeneousB p.2 = true := by
  intro p hp
  unfold mapInsert at hp
  split at hp
  · exact hacc p hp
  · rcases List.mem_append.mp hp with hp | hp
    · exact hacc p hp
    · simp only [List.mem_singleton] at hp
      rw [hp]
      exact ht

theorem chainOK_cons_cons {a b : Frame} {r : List Frame} (h : chainOK (a :: b :: r)) :
    childParentOK a b ∧ chainOK (b :: r) := h

theorem chainOK_tail {fr : Frame} {rest : List Frame} (h : chainOK (fr :: rest)) :
    chainOK rest := by
  cases rest with
  | nil => trivial
  | cons p r => exact (chainOK_cons_cons h).2

theorem chainOK_cons {fr : Frame} {rest : List Frame}
    (h1 : ∀ p rs, rest = p :: rs → childParentOK fr p) (h2 : chainOK rest) :
    chainOK (fr :: rest) := by
  cases rest with
  | nil => trivial
  | cons p r => exact ⟨h1 p r rfl, h2⟩

theorem childParentOK_shape {c c' p : Frame} (h : childParentOK c p)
    (hsh : isListFrame c → isListFrame c') : childParentOK c' p := by
  cases p with
  | root => trivial
  | compound acc pn => trivial
  | list ek acc r =>
    have h' : ek = 9 → isListFrame c := h
    exact fun h9 => hsh (h' h9)

theorem new_read_state_for_frameOK {tagType : Nat} {inp rest : Bytes} {fr : Frame}
    (h : new_read_state_for tagType inp = .ok (fr, rest)) :
    frameOK fr ∧ (tagType = 9 → isListFrame fr) := by
  unfold new_read_state_for at h
  split at h
  · rename_i h10
    simp only [Except.ok.injEq, Prod.mk.injEq] at h
    rw [← h.1]
    exact ⟨fun p hp => absurd hp (by simp), fun h9 => absurd h9 (by omega)⟩
  · split at h
    · obtain ⟨itt, i1, _, h⟩ := bindRead_eq_ok h
      obtain ⟨len, i2, _, h⟩ := bindRead_eq_ok h
      obtain ⟨fr1, hnl, h⟩ := bindExcept_eq_ok h
      simp only [Except.ok.injEq, Prod.mk.injEq] at h
      obtain ⟨hfr1, _⟩ := h
      obtain ⟨hshape, _, _⟩ := new_list_read_state_eq_ok hnl
      rw [← hfr1, hshape]
      exact ⟨fun u hu => absurd hu (by simp), fun _ => trivial⟩
    · simp at h

theorem add_tag_invariant {fr : Frame} {slot : Option Tag} {t : Tag} {fr' : Frame}
    {slot' : Option Tag} (h : add_tag fr slot t = .ok (fr', slot'))
    (hfr : frameOK fr) (ht : homogeneousB t = true)
    (hkind : ∀ ek acc r, fr = .list ek acc r → ek = 9 → kindOf t = 9)
    (hslot : ∀ u, slot = some u → homogeneousB u = true) :
    frameOK fr' ∧ (∀ u, slot' = some u → homogeneousB u = true) ∧
      (isListFrame fr → isListFrame fr') := by
  cases fr with
  | root =>
    simp only [add_tag, Except.ok.injEq, Prod.mk.injEq] at h
    obtain ⟨h1, h2⟩ := h
    rw [← h1, ← h2]
    refine ⟨trivial, ?_, fun hl => False.elim hl⟩
    intro u hu
    simp only [Option.some.injEq] at hu
    rw [← hu]
    exact ht
  | compound acc pn =>
    simp only [add_tag, Except.ok.injEq, Prod.mk.injEq] at h
    obtain ⟨h1, h2⟩ := h
    rw [← h1, ← h2]
    exact ⟨mapInsert_frameOK hfr ht, hslot, fun hl => False.elim hl⟩
  | list ek acc r =>
    simp only [add_tag] at h
    split at h
    · rename_i hchk
      simp only [Except.ok.injEq, Prod.mk.injEq] at h
      obtain ⟨h1, h2⟩ := h
      rw [← h1, ← h2]
      refine ⟨?_, hslot, fun _ => trivial⟩
      intro u hu
      rcases List.mem_append.mp hu with hu | hu
      · exact hfr u hu
      · simp only [List.mem_singleton] at hu
        rw [hu]
        refine ⟨?_, ht⟩
        rcases hchk with h9 | hk
        · rw [h9]
          exact hkind ek acc r rfl h9
        · exact hk
    · simp at h

/-- One successful engine step preserves the homogeneity invariant. -/
theorem stateOK_continue_read {st st' : EngineState} (h : continue_read st = .ok st')
    (hok : stateOK st) : stateOK st' := by
  obtain ⟨inp, stack, slot⟩ := st
  obtain ⟨hframes, hchain, hslot⟩ := hok
  cases stack with
  | nil => exact absurd h (by simp [continue_read])
  | cons fr rest =>
    have h' : bindRead (stepRead fr inp) (fun eff i => applyEffect eff rest slot i) = .ok st' := h
    obtain ⟨eff, inp1, hsr, happ⟩ := bindRead_eq_ok h'
    cases fr with
    | root =>
      have hsr' : (Except.ok (StepEffect.pop, inp) : Except DErr (StepEffect × Bytes)) =
          .ok (eff, inp1) := hsr
      simp only [Except.ok.injEq, Prod.mk.injEq] at hsr'
      obtain ⟨heff, _⟩ := hsr'
      subst heff
      simp only [applyEffect, Except.ok.injEq] at happ
      subst happ
      exact ⟨fun f hf => hframes f (by simp [hf]), chainOK_tail hchain, hslot⟩
    | compound acc pn =>
      have hsrEq := hsr
      simp only [stepRead] at hsrEq
      obtain ⟨k, inp2, hu1, hsrEq⟩ := bindRead_eq_ok hsrEq
      have htop : frameOK (.compound acc pn) := hframes _ (by simp)
      split at hsrEq
      · -- End byte: deliver the mapping and pop
        simp only [Except.ok.injEq, Prod.mk.injEq] at hsrEq
        obtain ⟨heff, _⟩ := hsrEq
        subst heff
        simp only [applyEffect] at happ
        obtain ⟨parent, rest2, parent', slot2, hrest, hadd, hst'⟩ := finish_tag_eq_ok happ
        subst hrest
        subst hst'
        have hparent : frameOK parent := hframes _ (by simp)
        have ht : homogeneousB (Tag.compoundTag acc) = true :=
          homogeneousB_compound acc htop
        have hcp : childParentOK (.compound acc pn) parent := (chainOK_cons_cons hchain).1
        have hkind : ∀ ek acc2 r, parent = .list ek acc2 r → ek = 9 →
            kindOf (Tag.compoundTag acc) = 9 := by
          intro ek acc2 r hp h9
          subst hp
          have hcp' : ek = 9 → isListFrame (Frame.compound acc pn) := hcp
          exact False.elim (hcp' h9)
        obtain ⟨hfr', hslot', hshape⟩ := add_tag_invariant hadd hparent ht hkind hslot
        refine ⟨?_, ?_, hslot'⟩
        · intro f hf
          rcases List.mem_cons.mp hf with rfl | hf
          · exact hfr'
          · exact hframes f (by simp [hf])
        · refine chainOK_cons ?_ (chainOK_tail (chainOK_cons_cons hchain).2)
          intro p rs hr
          have hc2 : childParentOK parent p := by
            have := (chainOK_cons_cons hchain).2
            rw [hr] at this
            exact (chainOK_cons_cons this).1
          exact childParentOK_shape hc2 hshape
      · obtain ⟨name, inp3, hrs, hsrEq⟩ := bindRead_eq_ok hsrEq
        have htopName : frameOK (.compound acc name) := htop
        split at hsrEq
        · -- container entry: push a child frame, remember the pending name
          obtain ⟨child, inp4, hnr, hsrEq⟩ := bindRead_eq_ok hsrEq
          simp only [Except.ok.injEq, Prod.mk.injEq] at hsrEq
          obtain ⟨heff, _⟩ := hsrEq
          subst heff
          simp only [applyEffect, Except.ok.injEq] at happ
          subst happ
          obtain ⟨hchildOK, _⟩ := new_read_state_for_frameOK hnr
          refine ⟨?_, ?_, hslot⟩
          · intro f hf
            rcases List.mem_cons.mp hf with rfl | hf
            · exact hchildOK
            · rcases List.mem_cons.mp hf with rfl | hf
              · exact htopName
              · exact hframes f (by simp [hf])
          · refine chainOK_cons ?_ ?_
            · intro p rs hr
              simp only [List.cons.injEq] at hr
              rw [← hr.1]
              trivial
            refine chainOK_cons ?_ (chainOK_tail hchain)
            intro p rs hr
            have hc2 : childParentOK (.compound acc pn) p := by
              have := hchain
              rw [hr] at this
              exact (chainOK_cons_cons this).1
            exact childParentOK_shape hc2 (fun hl => False.elim hl)
        · -- simple entry: decode inline and insert, no frame pushed
          obtain ⟨t, inp4, hstag, hsrEq⟩ := bindRead_eq_ok hsrEq
          simp only [Except.ok.injEq, Prod.mk.injEq] at hsrEq
          obtain ⟨heff, _⟩ := hsrEq
          subst heff
          simp only [applyEffect, Except.ok.injEq] at happ
          subst happ
          have ht := (read_simple_tag_fact hstag).2
          refine ⟨?_, ?_, hslot⟩
          · intro f hf
            rcases List.mem_cons.mp hf with rfl | hf
            · exact mapInsert_frameOK htop ht
            · exact hframes f (by simp [hf])
          · refine chainOK_cons ?_ (chainOK_tail hchain)
            intro p rs hr
            have hc2 : childParentOK (.compound acc pn) p := by
              have := hchain
              rw [hr] at this
              exact (chainOK_cons_cons this).1
            exact childParentOK_shape hc2 (fun hl => False.elim hl)
    | list ek acc rem =>
      have htop : frameOK (.list ek acc rem) := hframes _ (by simp)
      have hsrEq := hsr
      simp only [stepRead] at hsrEq
      split at hsrEq
      · rename_i hcont
        cases rem with
        | zero =>
          simp only [Except.ok.injEq, Prod.mk.injEq] at hsrEq
          obtain ⟨heff, _⟩ := hsrEq
          subst heff
          simp only [applyEffect] at happ
          obtain ⟨parent, rest2, parent', slot2, hrest, hadd, hst'⟩ := finish_tag_eq_ok happ
          subst hrest
          subst hst'
          have hparent : frameOK parent := hframes _ (by simp)
          have ht : homogeneousB (Tag.listTag ek acc) = true :=
            homogeneousB_list ek acc htop
          obtain ⟨hfr', hslot', hshape⟩ := add_tag_invariant hadd hparent ht
            (fun _ _ _ _ _ => rfl) hslot
          refine ⟨?_, ?_, hslot'⟩
          · intro f hf
            rcases List.mem_cons.mp hf with rfl | hf
            · exact hfr'
            · exact hframes f (by simp [hf])
          · refine chainOK_cons ?_ (chainOK_tail (chainOK_cons_cons hchain).2)
            intro p rs hr
            have hc2 : childParentOK parent p := by
              have := (chainOK_cons_cons hchain).2
              rw [hr] at this
              exact (chainOK_cons_cons this).1
            exact childParentOK_shape hc2 hshape
        | succ r =>
          obtain ⟨child, inp4, hnr, hsrEq⟩ := bindRead_eq_ok hsrEq
          simp only [Except.ok.injEq, Prod.mk.injEq] at hsrEq
          obtain ⟨heff, _⟩ := hsrEq
          subst heff
          simp only [applyEffect, Except.ok.injEq] at happ
          subst happ
          obtain ⟨hchildOK, hchild9⟩ := new_read_state_for_frameOK hnr
          refine ⟨?_, ?_, hslot⟩
          · intro f hf
            rcases List.mem_cons.mp hf with rfl | hf
            · exact hchildOK
            · rcases List.mem_cons.mp hf with rfl | hf
              · exact htop
              · exact hframes f (by simp [hf])
          · refine chainOK_cons ?_ ?_
            · intro p rs hr
              simp only [List.cons.injEq] at hr
              rw [← hr.1]
              exact fun h9 => hchild9 h9
            · refine chainOK_cons ?_ (chainOK_tail hchain)
              intro p rs hr
              have hc2 : childParentOK (.list ek acc (r + 1)) p := by
                have := hchain
                rw [hr] at this
                exact (chainOK_cons_cons this).1
              exact childParentOK_shape hc2 (fun _ => trivial)
      · -- simple element kind: batch all remaining elements and finish
        obtain ⟨ts, inp4, hrl, hsrEq⟩ := bindRead_eq_ok hsrEq
        simp only [Except.ok.injEq, Prod.mk.injEq] at hsrEq
        obtain ⟨heff, _⟩ := hsrEq
        subst heff
        simp only [applyEffect] at happ
        obtain ⟨parent, rest2, parent', slot2, hrest, hadd, hst'⟩ := finish_tag_eq_ok happ
        subst hrest
        subst hst'
        have hparent : frameOK parent := hframes _ (by simp)
        have helems := read_list_elems_fact hrl
        have ht : homogeneousB (Tag.listTag ek (acc ++ ts)) = true := by
          apply homogeneousB_list
          intro u hu
          rcases List.mem_append.mp hu with hu | hu
          · exact htop u hu
          · exact helems u hu
        obtain ⟨hfr', hslot', hshape⟩ := add_tag_invariant hadd hparent ht
          (fun _ _ _ _ _ => rfl) hslot
        refine ⟨?_, ?_, hslot'⟩
        · intro f hf
          rcases List.mem_cons.mp hf with rfl | hf
          · exact hfr'
          · exact hframes f (by simp [hf])
        · refine chainOK_cons ?_ (chainOK_tail (chainOK_cons_cons hchain).2)
          intro p rs hr
          have hc2 : childParentOK parent p := by
            have := (chainOK_cons_cons hchain).2
            rw [hr] at this
            exact (chainOK_cons_cons this).1
          exact childParentOK_shape hc2 hshape

/-- The invariant survives the whole drive loop: a successfully delivered root
slot is homogeneous. -/
theorem process_read_state_stateOK :
    ∀ fuel st slotOut rem, process_read_state fuel st = .ok (slotOut, rem) → stateOK st →
      ∀ t, slotOut = some t → homogeneousB t = true := by
  intro fuel
  induction fuel with
  | zero =>
    intro st slotOut rem h hok t ht
    obtain ⟨inp, stack, slot⟩ := st
    cases stack with
    | nil =>
      have h' : (Except.ok (slot, inp) : Except DErr (Option Tag × Bytes)) =
          .ok (slotOut, rem) := h
      simp only [Except.ok.injEq, Prod.mk.injEq] at h'
      exact hok.2.2 t (by rw [h'.1, ht])
    | cons fr rest => exact absurd h (by simp [process_read_state])
  | succ n ih =>
    intro st slotOut rem h hok t ht
    obtain ⟨inp, stack, slot⟩ := st
    cases stack with
    | nil =>
      have h' : (Except.ok (slot, inp) : Except DErr (Option Tag × Bytes)) =
          .ok (slotOut, rem) := h
      simp only [Except.ok.injEq, Prod.mk.injEq] at h'
      exact hok.2.2 t (by rw [h'.1, ht])
    | cons fr rest =>
      have h' : bindExcept (continue_read ⟨inp, fr :: rest, slot⟩)
          (fun st' => process_read_state n st') = .ok (slotOut, rem) := h
      obtain ⟨st', hcr, hrun⟩ := bindExcept_eq_ok h'
      exact ih st' slotOut rem hrun (stateOK_continue_read hcr hok) t ht

/-- Claim C9: every List value anywhere in a successfully decoded tree is
homogeneous — all elements of every list have the list's declared element kind
— maintained by construction through every engine operation that appends to a
list (`add_tag`'s check and the batched simple-element loop). -/
theorem C9_list_homogeneity :
    ∀ (inp : Bytes) (root : RootTag) (rem : Bytes) (t : Tag),
      read_nbt inp = .ok (root, rem) → root.tag = some t → homogeneousB t = true := by
  intro inp root rem t h htag
  rw [read_nbt_def] at h
  obtain ⟨k, inp0, hu, h⟩ := bindRead_eq_ok h
  obtain ⟨name, inp1, hrs, h⟩ := bindRead_eq_ok h
  by_cases hk : k = 9 ∨ k = 10
  · rw [if_pos hk] at h
    obtain ⟨fr, inp2, hnr, h⟩ := bindRead_eq_ok h
    obtain ⟨slotv, inpF, hproc, h⟩ := bindRead_eq_ok h
    have h' : (Except.ok ({ name := name, tag := slotv }, inpF) :
        Except DErr (RootTag × Bytes)) = .ok (root, rem) := h
    simp only [Except.ok.injEq, Prod.mk.injEq] at h'
    obtain ⟨hroot, _⟩ := h'
    have hstOK : stateOK { input := inp2, stack := [fr, Frame.root], slot := none } := by
      refine ⟨?_, ?_, fun u hu => by simp at hu⟩
      · intro f hf
        rcases List.mem_cons.mp hf with rfl | hf
        · exact (new_read_state_for_frameOK hnr).1
        · rcases List.mem_cons.mp hf with rfl | hf
          · trivial
          · simp at hf
      · exact ⟨trivial, trivial⟩
    refine process_read_state_stateOK _ _ _ _ hproc hstOK t ?_
    rw [← htag, ← hroot]
  · rw [if_neg hk] at h
    have h' : (Except.ok ({ name := name, tag := none }, inp1) :
        Except DErr (RootTag × Bytes)) = .ok (root, rem) := h
    simp only [Except.ok.injEq, Prod.mk.injEq] at h'
    obtain ⟨hroot, _⟩ := h'
    rw [← hroot] at htag
    simp at htag

/-- Witness for C9 on a List-of-Byte document. -/
theorem C9_list_homogeneity_witness :
    homogeneousB (Tag.listTag 1 [Tag.byteTag 5, Tag.byteTag 6]) = true :=
  C9_list_homogeneity [9, 0, 0, 1, 0, 0, 0, 2, 5, 6]
    { name := [], tag := some (.listTag 1 [.byteTag 5, .byteTag 6]) } [] _ rfl rfl

end Nbt
